import Mathlib

/-!
Verification development for the filesystem tree materialization engine in
`src/app/src-tauri/src/lib.rs`: the ZIP extractor (`extract_zip`), the
recursive directory copier (`copy_directory` / `copy_dir_recursive`) and the
archive content classifier (`analyze_zip_content`).

The embedding works over a pure model:
* paths are lists of components (`List String`); an OS path is obtained by
  splitting a raw entry name on `'/'` (Unix semantics of `Path::join`), and
  the OS-level resolution of `".."` / `"."` components is modelled by
  `resolvePath`, applied at the point a filesystem operation executes;
* the filesystem is an association list of files plus a list of directories;
* byte buffers are `List Nat`;
* the rayon parallel fan-outs are modelled in two ways: as a sequential fold
  over the records for the final filesystem state (the write targets of a
  successful run are the same under any interleaving), and as an explicit
  interleaving machine (`wstep` / `runSched`) for the shared failure slot,
  where the scheduling order of the workers' check and write steps is a
  parameter.
-/

namespace SimsForge

/-! ### String helpers (models of the Rust `str` operations used) -/

/-- Model of Rust `str::ends_with`. -/
def endsWithStr (s suffix : String) : Bool :=
  suffix.data.isSuffixOf s.data

/-- Model of Rust `Path::is_absolute` on Unix: the name starts with `'/'`. -/
def startsSlash (s : String) : Bool :=
  match s.data with
  | [] => false
  | c :: _ => c = '/'

/-- Model of Rust `str::to_lowercase` (ASCII range; the classifier's
patterns are all ASCII). -/
def lowerStr (s : String) : String :=
  String.mk (s.data.map Char.toLower)

/-- Test whether `pat` occurs contiguously inside the character list. -/
def containsChars (pat : List Char) : List Char → Bool
  | [] => pat.isEmpty
  | c :: cs => pat.isPrefixOf (c :: cs) || containsChars pat cs

/-- Model of Rust `str::contains` with a string pattern (substring test). -/
def containsStr (s pat : String) : Bool :=
  containsChars pat.data s.data

/-- Holds when the string `s` begins with the string `p`. -/
def prefixStr (p s : String) : Bool :=
  p.data.isPrefixOf s.data

/-- Split a character list at `'/'` separators. -/
def splitAux (cur : List Char) : List Char → List (List Char)
  | [] => [cur.reverse]
  | c :: cs =>
    if c = '/' then cur.reverse :: splitAux [] cs else splitAux (c :: cur) cs

/-- Components of an entry name: split on `'/'`, dropping empty components
(as Rust `Path` does when joining). -/
def splitP (s : String) : List String :=
  ((splitAux [] s.data).map String.mk).filter (fun c => decide (c ≠ ""))

/-- A path component that the OS treats as an ordinary name. -/
def niceComp (c : String) : Bool :=
  decide (c ≠ "") && decide (c ≠ ".") && decide (c ≠ "..")

/-- All components of the path are ordinary names. -/
def nicePath (p : List String) : Bool :=
  p.all niceComp

/-! ### Paths and the filesystem model -/

/-- Lexical-resolution step used by the filesystem when an operation
executes: `".."` pops a component, `"."` and empty components vanish. -/
def resolveAux (acc : List String) : List String → List String
  | [] => acc
  | c :: cs =>
    if c = ".." then resolveAux acc.dropLast cs
    else if c = "." ∨ c = "" then resolveAux acc cs
    else resolveAux (acc ++ [c]) cs

/-- Resolution of a path from the root. -/
def resolvePath (p : List String) : List String :=
  resolveAux [] p

/-- The nonempty prefixes of a path: the directories `create_dir_all`
materializes (ancestors first). -/
def prefixesOf (p : List String) : List (List String) :=
  (List.range p.length).map (fun i => p.take (i + 1))

/-- Model of Rust `Path::parent`: drop the last component, none at the root. -/
def parentDir (p : List String) : Option (List String) :=
  match p with
  | [] => none
  | _ :: _ => some p.dropLast

/-- Model of Rust `Path::new(dest).join(name)`: joining an absolute name
replaces the base entirely. -/
def joinName (dest : List String) (name : String) : List String :=
  if startsSlash name then splitP name else dest ++ splitP name

/-- The filesystem: an association list of (resolved path, content) files
and a list of (resolved) directory paths. -/
structure FS where
  files : List (List String × List Nat)
  dirs : List (List String)
deriving DecidableEq

/-- Model of `create_dir_all`: add the directory and all its ancestors. -/
def mkdirAll (p : List String) (fs : FS) : FS :=
  { fs with dirs := prefixesOf (resolvePath p) ++ fs.dirs }

/-- Remove every binding of key `p` from the file association list. -/
def eraseKey (p : List String) : List (List String × List Nat) → List (List String × List Nat)
  | [] => []
  | x :: xs => if x.1 = p then eraseKey p xs else x :: eraseKey p xs

/-- Look up the first binding of key `p` in the file association list. -/
def lookupFile (p : List String) : List (List String × List Nat) → Option (List Nat)
  | [] => none
  | x :: xs => if x.1 = p then some x.2 else lookupFile p xs

/-- Model of `std::fs::write`: create or overwrite the file at the resolved
target path. -/
def writeFile (p : List String) (content : List Nat) (fs : FS) : FS :=
  { fs with files :=
      (resolvePath p, content) :: eraseKey (resolvePath p) fs.files }

/-- The content of the file at (already resolved) path `p`, if present. -/
def fileAt (fs : FS) (p : List String) : Option (List Nat) :=
  lookupFile p fs.files

/-- Model of `remove_dir_all`: delete the path and everything below it. -/
def removeDirAll (p : List String) (fs : FS) : FS :=
  { files := fs.files.filter (fun x => !(resolvePath p).isPrefixOf x.1),
    dirs := fs.dirs.filter (fun d => !(resolvePath p).isPrefixOf d) }

/-- Model of `Path::exists` for the model paths. -/
def existsAt (fs : FS) (p : List String) : Bool :=
  fs.dirs.contains (resolvePath p) ||
    fs.files.any (fun x => x.1 == resolvePath p)

/-- Number of regular files whose path lies under `dest` (including `dest`
itself as a prefix). -/
def countFilesUnder (dest : List String) (fs : FS) : Nat :=
  (fs.files.filter (fun x => dest.isPrefixOf x.1)).length

/-- Number of distinct directories present under `dest`. -/
def countDirsUnder (dest : List String) (fs : FS) : Nat :=
  ((fs.dirs.filter (fun d => dest.isPrefixOf d)).dedup).length

/-! ### `extract_zip` (lib.rs lines 19-78)

The sequential metadata pass collects directory entries and file entries in
archive order; then all directories are created, then all file parents,
then the files are written (in parallel in the source; the final state over
distinct targets is order-independent, so the write pass is a fold here). -/

/-- One archive entry as surfaced by the zip reader: its raw name and its
decompressed bytes (empty for directory markers). -/
structure ZEntry where
  name : String
  content : List Nat
deriving DecidableEq

/-- First pass of `extract_zip`: split the entries into
`dirs_to_create` (names ending in `'/'`) and `files_to_create`
(everything else, with content), preserving archive order. -/
def collectEntries : List ZEntry → List String × List (String × List Nat)
  | [] => ([], [])
  | e :: es =>
    let r := collectEntries es
    if endsWithStr e.name "/" then (e.name :: r.1, r.2)
    else (r.1, (e.name, e.content) :: r.2)

/-- Filesystem semantics of `extract_zip`: phase 1 creates the explicit
directory entries, phase 2 creates each file's parent directory, phase 3
writes every file. -/
def extract_zip (dest_dir : List String) (entries : List ZEntry) (fs : FS) : FS :=
  let c := collectEntries entries
  let fs1 := c.1.foldl (fun f d => mkdirAll (joinName dest_dir d) f) fs
  let fs2 := c.2.foldl
    (fun f r =>
      match parentDir (joinName dest_dir r.1) with
      | some p => mkdirAll p f
      | none => f) fs1
  c.2.foldl (fun f r => writeFile (joinName dest_dir r.1) r.2 f) fs2

/-! ### Event traces for the temporal claims -/

/-- A filesystem call made by one of the write pipelines: a `create_dir_all`
call or a file write. -/
inductive Event where
  | mkdir (p : List String)
  | write (p : List String) (content : List Nat)
deriving DecidableEq

/-- Is the event a directory creation? -/
def Event.isMkdir : Event → Bool
  | .mkdir _ => true
  | .write _ _ => false

/-- Is the event a file write? -/
def Event.isWrite : Event → Bool
  | .mkdir _ => false
  | .write _ _ => true

/-- Run a sequence of `create_dir_all` calls, aborting at the first one the
environment `bad` makes fail (the failing call creates nothing). -/
def runMkdirs (bad : List String → Bool) : List (List String) → List Event × Option String
  | [] => ([], none)
  | p :: ps =>
    if bad p then ([], some "directory create error")
    else
      let r := runMkdirs bad ps
      (Event.mkdir p :: r.1, r.2)

/-- Event trace of `extract_zip` with directory-creation failures injected
by `bad`: a failed `create_dir_all` aborts the whole extraction before any
file write. -/
def extractEventsE (bad : List String → Bool) (dest_dir : List String)
    (entries : List ZEntry) : List Event × Option String :=
  let c := collectEntries entries
  let r1 := runMkdirs bad (c.1.map (fun d => joinName dest_dir d))
  match r1.2 with
  | some e => (r1.1, some e)
  | none =>
    let r2 := runMkdirs bad
      (c.2.filterMap (fun r => parentDir (joinName dest_dir r.1)))
    match r2.2 with
    | some e => (r1.1 ++ r2.1, some e)
    | none =>
      (r1.1 ++ r2.1 ++ c.2.map (fun r => Event.write (joinName dest_dir r.1) r.2),
        none)

/-- Directories known to exist after a trace executes, starting from
`dirs` (a `mkdir p` call materializes every nonempty prefix of `p`). -/
def dirsAfter (dirs : List (List String)) : List Event → List (List String)
  | [] => dirs
  | .mkdir p :: es => dirsAfter (prefixesOf p ++ dirs) es
  | .write _ _ :: es => dirsAfter dirs es

/-- Every write in the trace happens at a moment where the directory that
must hold the file (the write target's lexical parent) already exists. -/
def writesSafe (dirs : List (List String)) : List Event → Bool
  | [] => true
  | .mkdir p :: es => writesSafe (prefixesOf p ++ dirs) es
  | .write t _ :: es =>
    (decide (t.dropLast ∈ dirs) || decide (t.dropLast = [])) && writesSafe dirs es

/-! ### `copy_directory` / `copy_dir_recursive` (lib.rs lines 198-213, 412-464)

The source tree is modelled by the Directory Listing Snapshot the code takes
with `read_dir` at each level: a node is either a file with content or a
directory with an ordered list of named children. -/

mutual
/-- A node of the source directory tree. -/
inductive FTree where
  | file (content : List Nat)
  | dir (children : Kids)
deriving DecidableEq

/-- The ordered children of a directory node. -/
inductive Kids where
  | nil
  | cons (name : String) (t : FTree) (rest : Kids)
deriving DecidableEq
end

/-- The child names of a listing, in order. -/
def kidsNames : Kids → List String
  | .nil => []
  | .cons n _ rest => n :: kidsNames rest

/-- Does this child name a directory? -/
def FTree.isDirNode : FTree → Bool
  | .file _ => false
  | .dir _ => true

mutual
/-- Well-formed snapshot: what `read_dir` can actually return — each child
name is a single ordinary component and the names at one level are
pairwise distinct. -/
def WFtree : FTree → Bool
  | .file _ => true
  | .dir ch => WFkids ch

/-- Well-formedness of a child list. -/
def WFkids : Kids → Bool
  | .nil => true
  | .cons n t rest =>
    niceComp n && !((kidsNames rest).contains n) && WFtree t && WFkids rest
end

mutual
/-- The files of the tree, as (relative path, content) pairs. -/
def treeFiles : FTree → List (List String × List Nat)
  | .file c => [([], c)]
  | .dir ch => kidsFiles ch

/-- The files contributed by a child list. -/
def kidsFiles : Kids → List (List String × List Nat)
  | .nil => []
  | .cons n t rest =>
    (treeFiles t).map (fun q => (n :: q.1, q.2)) ++ kidsFiles rest
end

/-- Phase 1 of a level of `copy_dir_recursive`: create the target directory
for every child that is itself a directory, sequentially, in listing order. -/
def mkdirPhase (ch : Kids) (dst : List String) (fs : FS) : FS :=
  match ch with
  | .nil => fs
  | .cons n t rest =>
    match t with
    | .dir _ => mkdirPhase rest dst (mkdirAll (dst ++ [n]) fs)
    | .file _ => mkdirPhase rest dst fs

mutual
/-- Filesystem semantics of `copy_dir_recursive`: per level, first the
sequential directory sub-phase, then the fan-out over all children (a file
child is copied, a directory child recurses). The fan-out is parallel in
the source; its targets are disjoint, so a fold in listing order yields the
same final state. -/
def copy_dir_recursive : FTree → List String → FS → FS
  | .file c, dst, fs => writeFile dst c fs
  | .dir ch, dst, fs => copyKids ch dst (mkdirPhase ch dst fs)

/-- The fan-out over the children of one level. -/
def copyKids : Kids → List String → FS → FS
  | .nil, _, fs => fs
  | .cons n t rest, dst, fs =>
    copyKids rest dst (copy_dir_recursive t (dst ++ [n]) fs)
end

/-- Top-level `copy_directory`: delete an existing target wholesale, recreate
it, then copy. `src = none` models a source whose listing fails
(`read_dir` error at the top level); the error is produced only after the
target has been replaced. -/
def copy_directory (src : Option FTree) (target : List String) (fs : FS) :
    FS × Option String :=
  let fs1 := if existsAt fs target then removeDirAll target fs else fs
  let fs2 := mkdirAll target fs1
  match src with
  | none => (fs2, some "Failed to copy directory: source read error")
  | some t => (copy_dir_recursive t target fs2, none)

/-! Event-trace semantics of a copy level, with directory-creation failures
injected by `bad`; used for the precedence claim. A failed `create_dir_all`
at a level aborts that level before its fan-out starts; failures inside the
fan-out do not stop the siblings (rayon collects all results), and the
error kept after the join is the last one in listing order, as in the
source's reduction loop. -/

/-- Targets of the sequential directory sub-phase of one level. -/
def dirTargets (ch : Kids) (dst : List String) : List (List String) :=
  match ch with
  | .nil => []
  | .cons n t rest =>
    match t with
    | .dir _ => (dst ++ [n]) :: dirTargets rest dst
    | .file _ => dirTargets rest dst

mutual
/-- Event trace of `copy_dir_recursive` under injected directory failures. -/
def copyEventsE (bad : List String → Bool) : FTree → List String → List Event × Option String
  | .file c, dst => ([Event.write dst c], none)
  | .dir ch, dst =>
    let r1 := runMkdirs bad (dirTargets ch dst)
    match r1.2 with
    | some e => (r1.1, some e)
    | none =>
      let r2 := copyKidsE bad ch dst
      (r1.1 ++ r2.1, r2.2)

/-- Event trace of the fan-out of one level. -/
def copyKidsE (bad : List String → Bool) : Kids → List String → List Event × Option String
  | .nil, _ => ([], none)
  | .cons n t rest, dst =>
    let r1 := copyEventsE bad t (dst ++ [n])
    let r2 := copyKidsE bad rest dst
    (r1.1 ++ r2.1,
      match r2.2 with
      | some e => some e
      | none => r1.2)
end

/-! ### `analyze_zip_content` (lib.rs lines 216-284) -/

/-- The classifier's report (`ZipAnalysis` in the source). -/
structure ZipAnalysis where
  has_package_files : Bool
  has_ts_script : Bool
  file_list : List String
  suspicious_files : List String
  total_files : Nat
deriving DecidableEq

/-- The fixed decoy-extension set of the classifier. -/
def suspicious_extensions : List String :=
  [".url", ".lnk", ".html", ".htm", ".webloc"]

/-- The fixed decoy-substring set of the classifier. -/
def suspicious_names : List String :=
  ["readme", "patreon", "support", "donate", "link", "discord"]

/-- The classifier's directory-marker test: the entry name ends in a
forward or backward slash. -/
def skipEntry (name : String) : Bool :=
  endsWithStr name "/" || endsWithStr name "\\"

/-- The classifier's suspicious test on the lowercased name. -/
def isSuspicious (name_lower : String) : Bool :=
  suspicious_extensions.any (fun ext => endsWithStr name_lower ext) ||
    suspicious_names.any (fun pat => containsStr name_lower pat)

/-- Accumulator of the classifier's single pass. -/
structure ALoop where
  has_package_files : Bool
  has_ts_script : Bool
  file_list : List String
  suspicious_files : List String
deriving DecidableEq

/-- Loop body of `analyze_zip_content` for one entry name. -/
def analyzeStep (acc : ALoop) (name : String) : ALoop :=
  if skipEntry name then acc
  else
    let name_lower := lowerStr name
    { has_package_files := acc.has_package_files || endsWithStr name_lower ".package",
      has_ts_script := acc.has_ts_script || endsWithStr name_lower ".ts4script",
      file_list := acc.file_list ++ [name],
      suspicious_files :=
        if isSuspicious name_lower then acc.suspicious_files ++ [name]
        else acc.suspicious_files }

/-- The classifier's pass over all entry names. -/
def analyzeLoop (names : List String) : ALoop :=
  names.foldl analyzeStep ⟨false, false, [], []⟩

/-- The archive as seen by `analyze_zip_content`: opening may fail, parsing
the container may fail, and reading each entry's name may fail. -/
inductive ZSource where
  | openFail (msg : String)
  | badFormat (msg : String)
  | entries (es : List (Except String String))

/-- Drain the entry names in order, stopping at the first entry whose
header cannot be read. -/
def readNames : List (Except String String) → Except String (List String)
  | [] => .ok []
  | .error e :: _ => .error e
  | .ok n :: rest =>
    match readNames rest with
    | .error e => .error e
    | .ok ns => .ok (n :: ns)

/-- Model of `analyze_zip_content`: a pure classification pass whose three
failure forms carry the source's three message prefixes. -/
def analyze_zip_content (src : ZSource) : Except String ZipAnalysis :=
  match src with
  | .openFail m => .error ("Failed to open ZIP: " ++ m)
  | .badFormat m => .error ("Invalid ZIP file: " ++ m)
  | .entries es =>
    match readNames es with
    | .error m => .error ("Failed to read ZIP entry: " ++ m)
    | .ok names =>
      let acc := analyzeLoop names
      .ok { has_package_files := acc.has_package_files,
            has_ts_script := acc.has_ts_script,
            file_list := acc.file_list,
            suspicious_files := acc.suspicious_files,
            total_files := es.length }

/-- The classifier threaded through a filesystem state: it performs no
filesystem call, so the state passes through untouched. -/
def analyzeFS (src : ZSource) (fs : FS) : Except String ZipAnalysis × FS :=
  (analyze_zip_content src, fs)

/-! ### The shared failure slot of the parallel fan-outs

Each worker of `extract_zip`'s fan-out runs two atomic slot accesses: first
the early-exit check (`if slot.is_some { return }`), later — after its
write fails — the store of its own error. The machine below runs the
workers under an arbitrary interleaving of those steps. -/

/-- State of the fan-out: the shared slot and each worker's program
counter (0 = before the check, 1 = before the write, 2 = done). -/
structure PState where
  slot : Option String
  pcs : List Nat
deriving DecidableEq

/-- Advance worker `i` by one atomic step. `workers` gives each worker's
write outcome: `some e` means its write fails with error `e`. -/
def wstep (workers : List (Option String)) (s : PState) (i : Nat) : PState :=
  match s.pcs.get? i with
  | some 0 =>
    if s.slot.isSome then { s with pcs := s.pcs.set i 2 }
    else { s with pcs := s.pcs.set i 1 }
  | some 1 =>
    match workers.get? i with
    | some (some e) => { slot := some e, pcs := s.pcs.set i 2 }
    | _ => { s with pcs := s.pcs.set i 2 }
  | _ => s

/-- Run the fan-out under the given schedule of worker steps. -/
def runSched (workers : List (Option String)) (sched : List Nat) (s : PState) : PState :=
  sched.foldl (wstep workers) s

/-- Initial fan-out state: empty slot, all workers before their check. -/
def initState (workers : List (Option String)) : PState :=
  { slot := none, pcs := workers.map (fun _ => 0) }

/-- The post-join reduction loop of `copy_dir_recursive` (lib.rs lines
452-457): walk the collected results and store each error into the slot. -/
def collectResults (results : List (Except String Unit)) : Option String :=
  results.foldl
    (fun slot r =>
      match r with
      | .error e => some e
      | .ok _ => slot) none

/-- The last error of a result list, if any. -/
def lastError : List (Except String Unit) → Option String
  | [] => none
  | r :: rs =>
    match lastError rs with
    | some e => some e
    | none =>
      match r with
      | .error e => some e
      | .ok _ => none

/-! ### Basic lemmas about paths and the filesystem model -/

theorem resolveAux_nice (p : List String) :
    ∀ acc, (∀ c ∈ p, niceComp c = true) → resolveAux acc p = acc ++ p := by
  induction p with
  | nil => intro acc _; simp [resolveAux]
  | cons c cs ih =>
    intro acc h
    have hc : niceComp c = true := h c (by simp)
    simp only [niceComp, Bool.and_eq_true, decide_eq_true_eq] at hc
    have h1 : ¬(c = "..") := hc.2
    have h2 : ¬(c = "." ∨ c = "") := by
      rintro (h' | h')
      · exact hc.1.2 h'
      · exact hc.1.1 h'
    rw [resolveAux, if_neg h1, if_neg h2,
      ih (acc ++ [c]) (fun d hd => h d (by simp [hd]))]
    simp

theorem resolvePath_nice (p : List String) (h : nicePath p = true) :
    resolvePath p = p := by
  have h' : ∀ c ∈ p, niceComp c = true := by
    simpa [nicePath, List.all_eq_true] using h
  simpa using resolveAux_nice p [] h'

theorem nicePath_append {p q : List String} (hp : nicePath p = true)
    (hq : nicePath q = true) : nicePath (p ++ q) = true := by
  simp only [nicePath, List.all_eq_true] at *
  intro c hc
  rcases List.mem_append.mp hc with h | h
  · exact hp c h
  · exact hq c h

theorem self_mem_prefixesOf {p : List String} (h : p ≠ []) : p ∈ prefixesOf p := by
  have hl : 0 < p.length := List.length_pos.mpr h
  simp only [prefixesOf, List.mem_map]
  exact ⟨p.length - 1, by simp [List.mem_range]; omega, by
    have : p.length - 1 + 1 = p.length := by omega
    simp [this]⟩

theorem mem_prefixesOf_shape {p q : List String} (h : q ∈ prefixesOf p) :
    q.isPrefixOf p = true ∧ q ≠ [] := by
  simp only [prefixesOf, List.mem_map, List.mem_range] at h
  obtain ⟨i, hi, rfl⟩ := h
  constructor
  · exact List.isPrefixOf_iff_prefix.mpr (List.take_prefix _ _)
  · have : (p.take (i + 1)).length = i + 1 := by
      rw [List.length_take]; omega
    intro hnil
    rw [hnil] at this
    simp at this

theorem files_mkdirAll (p : List String) (fs : FS) :
    (mkdirAll p fs).files = fs.files := rfl

theorem dirs_writeFile (p : List String) (c : List Nat) (fs : FS) :
    (writeFile p c fs).dirs = fs.dirs := rfl

theorem fileAt_mkdirAll (p q : List String) (fs : FS) :
    fileAt (mkdirAll p fs) q = fileAt fs q := rfl

theorem mem_dirs_mkdirAll_of_mem {q : List String} (p : List String) (fs : FS)
    (h : q ∈ fs.dirs) : q ∈ (mkdirAll p fs).dirs := by
  simp [mkdirAll, List.mem_append, h]

theorem mem_dirs_mkdirAll_self {p : List String} (fs : FS)
    (h : resolvePath p ≠ []) : resolvePath p ∈ (mkdirAll p fs).dirs := by
  simp only [mkdirAll, List.mem_append]
  exact Or.inl (self_mem_prefixesOf h)

theorem lookupFile_eraseKey_ne (l : List (List String × List Nat))
    {rp q : List String} (h : q ≠ rp) :
    lookupFile q (eraseKey rp l) = lookupFile q l := by
  induction l with
  | nil => rfl
  | cons x xs ih =>
    by_cases hx : x.1 = rp
    · have hq : ¬(x.1 = q) := by rw [hx]; exact fun h' => h h'.symm
      rw [eraseKey, if_pos hx, lookupFile, if_neg hq, ih]
    · rw [eraseKey, if_neg hx, lookupFile, lookupFile]
      by_cases hq : x.1 = q
      · rw [if_pos hq, if_pos hq]
      · rw [if_neg hq, if_neg hq, ih]

theorem fileAt_writeFile_self (p : List String) (c : List Nat) (fs : FS) :
    fileAt (writeFile p c fs) (resolvePath p) = some c := by
  simp [fileAt, writeFile, lookupFile]

theorem fileAt_writeFile_ne {p q : List String} (c : List Nat) (fs : FS)
    (h : q ≠ resolvePath p) :
    fileAt (writeFile p c fs) q = fileAt fs q := by
  have hd : ¬(resolvePath p = q) := fun h' => h h'.symm
  rw [fileAt, writeFile]
  show lookupFile q ((resolvePath p, c) :: eraseKey (resolvePath p) fs.files) = _
  rw [lookupFile, if_neg hd, lookupFile_eraseKey_ne _ h]
  rfl

theorem lookupFile_eq_none_iff {l : List (List String × List Nat)}
    {p : List String} :
    lookupFile p l = none ↔ ∀ x ∈ l, x.1 ≠ p := by
  induction l with
  | nil => simp [lookupFile]
  | cons x xs ih =>
    rw [lookupFile]
    by_cases hx : x.1 = p
    · simp [if_pos hx, hx]
    · simp only [if_neg hx, ih, List.mem_cons]
      constructor
      · rintro h y (rfl | hy)
        · exact hx
        · exact h y hy
      · intro h y hy
        exact h y (Or.inr hy)

theorem fileAt_eq_none_iff {fs : FS} {p : List String} :
    fileAt fs p = none ↔ ∀ x ∈ fs.files, x.1 ≠ p :=
  lookupFile_eq_none_iff

/-! ### Fold characterizations of the extract phases -/

/-- Sequential run of `create_dir_all` over a list of targets. -/
def mkdirAllList (qs : List (List String)) (fs : FS) : FS :=
  qs.foldl (fun f q => mkdirAll q f) fs

/-- Sequential run of `std::fs::write` over (target, content) records. -/
def writeAll (ps : List (List String × List Nat)) (fs : FS) : FS :=
  ps.foldl (fun f r => writeFile r.1 r.2 f) fs

theorem files_mkdirAllList (qs : List (List String)) (fs : FS) :
    (mkdirAllList qs fs).files = fs.files := by
  induction qs generalizing fs with
  | nil => rfl
  | cons q qs ih => rw [mkdirAllList, List.foldl_cons, ← mkdirAllList, ih]; rfl

theorem fileAt_mkdirAllList (qs : List (List String)) (fs : FS) (p : List String) :
    fileAt (mkdirAllList qs fs) p = fileAt fs p := by
  rw [fileAt, files_mkdirAllList]; rfl

theorem dirs_writeAll (ps : List (List String × List Nat)) (fs : FS) :
    (writeAll ps fs).dirs = fs.dirs := by
  induction ps generalizing fs with
  | nil => rfl
  | cons r ps ih => rw [writeAll, List.foldl_cons, ← writeAll, ih]; rfl

theorem mem_dirs_mkdirAllList_of_mem {q : List String}
    (qs : List (List String)) (fs : FS) (h : q ∈ fs.dirs) :
    q ∈ (mkdirAllList qs fs).dirs := by
  induction qs generalizing fs with
  | nil => exact h
  | cons p ps ih =>
    rw [mkdirAllList, List.foldl_cons, ← mkdirAllList]
    exact ih _ (mem_dirs_mkdirAll_of_mem _ _ h)

theorem mem_dirs_mkdirAllList_self {q : List String} :
    ∀ (qs : List (List String)) (fs : FS), q ∈ qs → resolvePath q ≠ [] →
      resolvePath q ∈ (mkdirAllList qs fs).dirs := by
  intro qs
  induction qs with
  | nil => intro fs hq _; cases hq
  | cons p ps ih =>
    intro fs hq hnn
    rw [mkdirAllList, List.foldl_cons, ← mkdirAllList]
    rcases List.mem_cons.mp hq with rfl | hq'
    · exact mem_dirs_mkdirAllList_of_mem _ _ (mem_dirs_mkdirAll_self _ hnn)
    · exact ih _ hq' hnn

theorem foldl_parent_eq (dest : List String) (rs : List (String × List Nat)) (fs : FS) :
    rs.foldl
      (fun f r =>
        match parentDir (joinName dest r.1) with
        | some p => mkdirAll p f
        | none => f) fs =
    mkdirAllList (rs.filterMap (fun r => parentDir (joinName dest r.1))) fs := by
  induction rs generalizing fs with
  | nil => rfl
  | cons r rs ih =>
    rw [List.foldl_cons, List.filterMap_cons]
    cases h : parentDir (joinName dest r.1) with
    | none => exact ih fs
    | some p => exact ih (mkdirAll p fs)

/-- The extractor factored into its three phases. -/
theorem extract_zip_eq (dest : List String) (entries : List ZEntry) (fs : FS) :
    extract_zip dest entries fs =
      writeAll ((collectEntries entries).2.map (fun r => (joinName dest r.1, r.2)))
        (mkdirAllList
          ((collectEntries entries).2.filterMap
            (fun r => parentDir (joinName dest r.1)))
          (mkdirAllList
            ((collectEntries entries).1.map (fun d => joinName dest d)) fs)) := by
  unfold extract_zip
  rw [← foldl_parent_eq dest]
  unfold writeAll mkdirAllList
  rw [List.foldl_map, List.foldl_map]

theorem eraseKey_of_not_mem {l : List (List String × List Nat)} {p : List String}
    (h : ∀ x ∈ l, x.1 ≠ p) : eraseKey p l = l := by
  induction l with
  | nil => rfl
  | cons x xs ih =>
    rw [eraseKey, if_neg (h x (by simp))]
    rw [ih (fun y hy => h y (by simp [hy]))]

theorem fileAt_writeAll_not_mem {ps : List (List String × List Nat)}
    {q : List String} (fs : FS) (h : ∀ r ∈ ps, resolvePath r.1 ≠ q) :
    fileAt (writeAll ps fs) q = fileAt fs q := by
  induction ps generalizing fs with
  | nil => rfl
  | cons r ps ih =>
    rw [writeAll, List.foldl_cons, ← writeAll,
      ih _ (fun r' hr' => h r' (by simp [hr'])),
      fileAt_writeFile_ne _ _ (fun h' => h r (by simp) h'.symm)]

theorem fileAt_writeAll_mem {ps : List (List String × List Nat)}
    {r : List String × List Nat} (fs : FS)
    (hnodup : (ps.map (fun r => resolvePath r.1)).Nodup) (hr : r ∈ ps) :
    fileAt (writeAll ps fs) (resolvePath r.1) = some r.2 := by
  induction ps generalizing fs with
  | nil => cases hr
  | cons r' ps ih =>
    rw [writeAll, List.foldl_cons, ← writeAll]
    rw [List.map_cons, List.nodup_cons] at hnodup
    rcases List.mem_cons.mp hr with rfl | hmem
    · rw [fileAt_writeAll_not_mem _
        (fun r'' hr'' h' =>
          hnodup.1 (by rw [← h']; exact List.mem_map_of_mem _ hr''))]
      exact fileAt_writeFile_self _ _ _
    · exact ih _ hnodup.2 hmem

theorem countFilesUnder_writeFile_new {dest p : List String} (c : List Nat) (fs : FS)
    (hunder : dest.isPrefixOf (resolvePath p) = true)
    (hnew : fileAt fs (resolvePath p) = none) :
    countFilesUnder dest (writeFile p c fs) = countFilesUnder dest fs + 1 := by
  have herase : eraseKey (resolvePath p) fs.files = fs.files :=
    eraseKey_of_not_mem (fileAt_eq_none_iff.mp hnew)
  rw [countFilesUnder, writeFile]
  show (((resolvePath p, c) :: eraseKey (resolvePath p) fs.files).filter
    (fun x => dest.isPrefixOf x.1)).length = _
  rw [herase, List.filter_cons_of_pos (by simpa using hunder)]
  simp [countFilesUnder, Nat.add_comm]

theorem countFilesUnder_writeAll {dest : List String}
    {ps : List (List String × List Nat)} (fs : FS)
    (hunder : ∀ r ∈ ps, dest.isPrefixOf (resolvePath r.1) = true)
    (hnodup : (ps.map (fun r => resolvePath r.1)).Nodup)
    (hnew : ∀ r ∈ ps, fileAt fs (resolvePath r.1) = none) :
    countFilesUnder dest (writeAll ps fs) = countFilesUnder dest fs + ps.length := by
  induction ps generalizing fs with
  | nil => rfl
  | cons r ps ih =>
    rw [writeAll, List.foldl_cons, ← writeAll]
    rw [List.map_cons, List.nodup_cons] at hnodup
    rw [ih _ (fun r' hr' => hunder r' (by simp [hr'])) hnodup.2
      (fun r' hr' => by
        rw [fileAt_writeFile_ne _ _
          (fun h' => hnodup.1 (h' ▸ List.mem_map_of_mem _ hr'))]
        exact hnew r' (by simp [hr']))]
    rw [countFilesUnder_writeFile_new _ _ (hunder r (by simp)) (hnew r (by simp))]
    simp [List.length_cons]
    omega

/-! ### Characterization of the metadata pass -/

theorem collectEntries_fst (es : List ZEntry) :
    (collectEntries es).1 =
      (es.filter (fun e => endsWithStr e.name "/")).map (fun e => e.name) := by
  induction es with
  | nil => rfl
  | cons e es ih =>
    by_cases h : endsWithStr e.name "/" = true
    · simp [collectEntries, h, ih, List.filter_cons]
    · simp [collectEntries, h, ih, List.filter_cons]

theorem collectEntries_snd (es : List ZEntry) :
    (collectEntries es).2 =
      (es.filter (fun e => !endsWithStr e.name "/")).map
        (fun e => (e.name, e.content)) := by
  induction es with
  | nil => rfl
  | cons e es ih =>
    by_cases h : endsWithStr e.name "/" = true
    · simp [collectEntries, h, ih, List.filter_cons]
    · simp [collectEntries, h, ih, List.filter_cons]

theorem mem_collect_fst {es : List ZEntry} {d : String}
    (h : d ∈ (collectEntries es).1) :
    ∃ e ∈ es, d = e.name ∧ endsWithStr e.name "/" = true := by
  rw [collectEntries_fst] at h
  obtain ⟨e, he, rfl⟩ := List.mem_map.mp h
  obtain ⟨hmem, hdir⟩ := List.mem_filter.mp he
  exact ⟨e, hmem, rfl, hdir⟩

theorem mem_collect_snd {es : List ZEntry} {r : String × List Nat}
    (h : r ∈ (collectEntries es).2) :
    ∃ e ∈ es, r.1 = e.name ∧ r.2 = e.content ∧ endsWithStr e.name "/" = false := by
  rw [collectEntries_snd] at h
  obtain ⟨e, he, rfl⟩ := List.mem_map.mp h
  obtain ⟨hmem, hfile⟩ := List.mem_filter.mp he
  exact ⟨e, hmem, rfl, rfl, by simpa using hfile⟩

/-! ### Small path helpers -/

theorem isPrefixOf_append (dest l : List String) :
    dest.isPrefixOf (dest ++ l) = true :=
  List.isPrefixOf_iff_prefix.mpr (List.prefix_append _ _)

theorem dropLast_append_left {l m : List String} (h : m ≠ []) :
    (l ++ m).dropLast = l ++ m.dropLast := by
  induction l with
  | nil => rfl
  | cons a l ih =>
    rw [List.cons_append]
    rw [List.dropLast_cons_of_ne_nil (by simp [h]), ih, List.cons_append]

theorem nicePath_dropLast {l : List String} (h : nicePath l = true) :
    nicePath l.dropLast = true := by
  simp only [nicePath, List.all_eq_true] at *
  intro c hc
  exact h c (List.dropLast_subset l hc)

theorem lookupFile_ne_none_of_mem {l : List (List String × List Nat)}
    {x : List String × List Nat} (h : x ∈ l) : lookupFile x.1 l ≠ none := by
  induction l with
  | nil => cases h
  | cons y ys ih =>
    rw [lookupFile]
    rcases List.mem_cons.mp h with rfl | h'
    · rw [if_pos rfl]; simp
    · by_cases hy : y.1 = x.1
      · rw [if_pos hy]; simp
      · rw [if_neg hy]; exact ih h'

theorem countFilesUnder_eq_zero {dest : List String} {fs : FS}
    (h : ∀ p, dest.isPrefixOf p = true → fileAt fs p = none) :
    countFilesUnder dest fs = 0 := by
  rw [countFilesUnder, List.length_eq_zero]
  rw [List.filter_eq_nil_iff]
  intro x hx
  intro hpre
  exact lookupFile_ne_none_of_mem hx (h x.1 hpre)

theorem length_dedup_le_of_subset {l m : List (List String)}
    (h : ∀ x ∈ l, x ∈ m) : l.dedup.length ≤ m.dedup.length := by
  have hsub : l.dedup ⊆ m.dedup := fun x hx =>
    List.mem_dedup.mpr (h x (List.mem_dedup.mp hx))
  exact ((List.nodup_dedup l).subperm hsub).length_le

theorem parentDir_ne_nil {p : List String} (h : p ≠ []) :
    parentDir p = some p.dropLast := by
  cases p with
  | nil => exact absurd rfl h
  | cons a l => rfl

/-- The directory paths the completeness claim counts: the explicit
directory entries plus the inferred parent directory of every file entry. -/
def inferredDirs (dest : List String) (entries : List ZEntry) : List (List String) :=
  (collectEntries entries).1.map (fun d => joinName dest d) ++
    (collectEntries entries).2.map (fun r => (joinName dest r.1).dropLast)

theorem joinName_rel {dest : List String} {name : String}
    (h : startsSlash name = false) : joinName dest name = dest ++ splitP name := by
  rw [joinName, if_neg (by simp [h])]

/-- Completeness of `extract_zip` over well-behaved archives: starting from
a destination under which no regular file exists, with relative,
`".."`-free, pairwise-distinct file entry paths, extraction leaves exactly
one regular file per file entry, with that entry's bytes, and at least one
directory per distinct explicit-or-inferred directory path. -/
theorem extract_zip_complete
    (dest : List String) (entries : List ZEntry) (fs : FS)
    (hdest : nicePath dest = true) (hdne : dest ≠ [])
    (hnames : ∀ e ∈ entries, startsSlash e.name = false ∧ splitP e.name ≠ [] ∧
      nicePath (splitP e.name) = true)
    (hnodup : ((collectEntries entries).2.map (fun r => splitP r.1)).Nodup)
    (hempty : ∀ p, dest.isPrefixOf p = true → fileAt fs p = none) :
    countFilesUnder dest (extract_zip dest entries fs)
        = (collectEntries entries).2.length
    ∧ (∀ r ∈ (collectEntries entries).2,
        fileAt (extract_zip dest entries fs) (dest ++ splitP r.1) = some r.2)
    ∧ (inferredDirs dest entries).dedup.length
        ≤ countDirsUnder dest (extract_zip dest entries fs) := by
  have hsnd : ∀ r ∈ (collectEntries entries).2,
      joinName dest r.1 = dest ++ splitP r.1 ∧ splitP r.1 ≠ [] ∧
        nicePath (splitP r.1) = true := by
    intro r hr
    obtain ⟨e, he, h1, _, _⟩ := mem_collect_snd hr
    obtain ⟨hs, hne, hnice⟩ := hnames e he
    rw [h1]
    exact ⟨joinName_rel hs, hne, hnice⟩
  have hres : ∀ r ∈ (collectEntries entries).2,
      resolvePath (joinName dest r.1) = dest ++ splitP r.1 := by
    intro r hr
    obtain ⟨hj, _, hnice⟩ := hsnd r hr
    rw [hj]
    exact resolvePath_nice _ (nicePath_append hdest hnice)
  have hfst : ∀ d ∈ (collectEntries entries).1,
      joinName dest d = dest ++ splitP d ∧ splitP d ≠ [] ∧
        resolvePath (joinName dest d) = dest ++ splitP d := by
    intro d hd
    obtain ⟨e, he, rfl, _⟩ := mem_collect_fst hd
    obtain ⟨hs, hne, hnice⟩ := hnames e he
    refine ⟨joinName_rel hs, hne, ?_⟩
    rw [joinName_rel hs]
    exact resolvePath_nice _ (nicePath_append hdest hnice)
  rw [extract_zip_eq]
  set c := collectEntries entries with hc
  set recs := c.2.map (fun r => (joinName dest r.1, r.2)) with hrecs
  set fs1 := mkdirAllList (c.1.map (fun d => joinName dest d)) fs with hfs1
  set fs2 := mkdirAllList (c.2.filterMap (fun r => parentDir (joinName dest r.1))) fs1
    with hfs2
  have hfile_fs2 : ∀ p, fileAt fs2 p = fileAt fs p := by
    intro p
    rw [hfs2, fileAt_mkdirAllList, hfs1, fileAt_mkdirAllList]
  have htgt : recs.map (fun x => resolvePath x.1) =
      (c.2.map (fun r => splitP r.1)).map (fun l => dest ++ l) := by
    rw [hrecs, List.map_map, List.map_map]
    exact List.map_congr_left (fun r hr => hres r hr)
  have htgt_nodup : (recs.map (fun x => resolvePath x.1)).Nodup := by
    rw [htgt]
    exact hnodup.map (fun a b hab => List.append_cancel_left hab)
  have hunder : ∀ x ∈ recs, dest.isPrefixOf (resolvePath x.1) = true := by
    intro x hx
    obtain ⟨r, hr, rfl⟩ := List.mem_map.mp hx
    rw [hres r hr]
    exact isPrefixOf_append _ _
  have hnew : ∀ x ∈ recs, fileAt fs2 (resolvePath x.1) = none := by
    intro x hx
    rw [hfile_fs2]
    exact hempty _ (hunder x hx)
  refine ⟨?_, ?_, ?_⟩
  · rw [countFilesUnder_writeAll fs2 hunder htgt_nodup hnew]
    rw [countFilesUnder_eq_zero (fun p hp => by rw [hfile_fs2]; exact hempty p hp)]
    simp [hrecs]
  · intro r hr
    have hx : (joinName dest r.1, r.2) ∈ recs := by
      rw [hrecs]; exact List.mem_map_of_mem _ hr
    have := fileAt_writeAll_mem fs2 htgt_nodup hx
    rw [hres r hr] at this
    exact this
  · have hdirs_mem : ∀ q ∈ inferredDirs dest entries,
        q ∈ (writeAll recs fs2).dirs ∧ dest.isPrefixOf q = true := by
      intro q hq
      rw [dirs_writeAll]
      rcases List.mem_append.mp hq with hql | hqr
      · obtain ⟨d, hd, rfl⟩ := List.mem_map.mp hql
        obtain ⟨hj, hne, hresd⟩ := hfst d hd
        have hnn : resolvePath (joinName dest d) ≠ [] := by
          rw [hresd]; simp [hdne]
        have h1 : resolvePath (joinName dest d) ∈ fs1.dirs := by
          rw [hfs1]
          exact mem_dirs_mkdirAllList_self _ _ (List.mem_map_of_mem _ hd) hnn
        have h2 : resolvePath (joinName dest d) ∈ fs2.dirs := by
          rw [hfs2]
          exact mem_dirs_mkdirAllList_of_mem _ _ h1
        constructor
        · have hrq : resolvePath (joinName dest d) = joinName dest d := by
            rw [hresd, hj]
          rw [← hrq]; exact h2
        · rw [hj]; exact isPrefixOf_append _ _
      · obtain ⟨r, hr, rfl⟩ := List.mem_map.mp hqr
        obtain ⟨hj, hne, hnice⟩ := hsnd r hr
        have hjnn : joinName dest r.1 ≠ [] := by
          rw [hj]; simp [hdne]
        have hparent : parentDir (joinName dest r.1) =
            some (joinName dest r.1).dropLast := parentDir_ne_nil hjnn
        have hmemf : (joinName dest r.1).dropLast ∈
            c.2.filterMap (fun r => parentDir (joinName dest r.1)) :=
          List.mem_filterMap.mpr ⟨r, hr, hparent⟩
        have hdrop : (joinName dest r.1).dropLast = dest ++ (splitP r.1).dropLast := by
          rw [hj, dropLast_append_left hne]
        have hrq : resolvePath (joinName dest r.1).dropLast =
            (joinName dest r.1).dropLast := by
          rw [hdrop]
          exact resolvePath_nice _ (nicePath_append hdest (nicePath_dropLast hnice))
        have hnn : resolvePath (joinName dest r.1).dropLast ≠ [] := by
          rw [hrq, hdrop]; simp [hdne]
        have h2 : resolvePath (joinName dest r.1).dropLast ∈ fs2.dirs := by
          rw [hfs2]
          exact mem_dirs_mkdirAllList_self _ _ hmemf hnn
        constructor
        · rw [← hrq]; exact h2
        · rw [hdrop]; exact isPrefixOf_append _ _
    rw [countDirsUnder]
    apply length_dedup_le_of_subset
    intro q hq
    obtain ⟨h1, h2⟩ := hdirs_mem q hq
    exact List.mem_filter.mpr ⟨h1, h2⟩

/-! ### Trace lemmas: directories are created before dependent writes -/

theorem writesSafe_append (a b : List Event) :
    ∀ dirs, writesSafe dirs (a ++ b) =
      (writesSafe dirs a && writesSafe (dirsAfter dirs a) b) := by
  induction a with
  | nil => intro dirs; simp [writesSafe, dirsAfter]
  | cons ev a ih =>
    intro dirs
    cases ev with
    | mkdir p => rw [List.cons_append, writesSafe, dirsAfter, writesSafe, ih]
    | write t c =>
      rw [List.cons_append, writesSafe, dirsAfter, writesSafe, ih,
        Bool.and_assoc]

theorem subset_dirsAfter (es : List Event) :
    ∀ dirs, dirs ⊆ dirsAfter dirs es := by
  induction es with
  | nil => intro dirs; exact fun x hx => hx
  | cons ev es ih =>
    intro dirs
    cases ev with
    | mkdir p =>
      rw [dirsAfter]
      exact fun x hx => ih _ (List.mem_append.mpr (Or.inr hx))
    | write t c => rw [dirsAfter]; exact ih _

theorem dirsAfter_mono (es : List Event) :
    ∀ {dirs dirs' : List (List String)}, dirs ⊆ dirs' →
      dirsAfter dirs es ⊆ dirsAfter dirs' es := by
  induction es with
  | nil => intro dirs dirs' h; exact h
  | cons ev es ih =>
    intro dirs dirs' h
    cases ev with
    | mkdir p =>
      rw [dirsAfter, dirsAfter]
      exact ih (fun x hx => by
        rcases List.mem_append.mp hx with h1 | h2
        · exact List.mem_append.mpr (Or.inl h1)
        · exact List.mem_append.mpr (Or.inr (h h2)))
    | write t c => rw [dirsAfter, dirsAfter]; exact ih h

theorem writesSafe_mono (es : List Event) :
    ∀ {dirs dirs' : List (List String)}, dirs ⊆ dirs' →
      writesSafe dirs es = true → writesSafe dirs' es = true := by
  induction es with
  | nil => intro _ _ _ _; rfl
  | cons ev es ih =>
    intro dirs dirs' h hs
    cases ev with
    | mkdir p =>
      rw [writesSafe] at hs ⊢
      exact ih (fun x hx => by
        rcases List.mem_append.mp hx with h1 | h2
        · exact List.mem_append.mpr (Or.inl h1)
        · exact List.mem_append.mpr (Or.inr (h h2))) hs
    | write t c =>
      rw [writesSafe, Bool.and_eq_true] at hs ⊢
      refine ⟨?_, ih h hs.2⟩
      rcases Bool.or_eq_true_iff.mp hs.1 with h1 | h2
      · exact Bool.or_eq_true_iff.mpr
          (Or.inl (decide_eq_true (h (of_decide_eq_true h1))))
      · exact Bool.or_eq_true_iff.mpr (Or.inr h2)

theorem writesSafe_of_all_mkdir {es : List Event}
    (h : es.all Event.isMkdir = true) : ∀ dirs, writesSafe dirs es = true := by
  induction es with
  | nil => intro dirs; rfl
  | cons ev es ih =>
    intro dirs
    rw [List.all_cons, Bool.and_eq_true] at h
    cases ev with
    | mkdir p => rw [writesSafe]; exact ih h.2 _
    | write t c => simp [Event.isMkdir] at h

theorem mem_dirsAfter_of_mkdir {p : List String} (es : List Event)
    (hp : p ≠ []) :
    ∀ dirs, Event.mkdir p ∈ es → p ∈ dirsAfter dirs es := by
  induction es with
  | nil => intro _ h; cases h
  | cons ev es ih =>
    intro dirs hmem
    rcases List.mem_cons.mp hmem with heq | h'
    · rw [← heq, dirsAfter]
      exact subset_dirsAfter _ _
        (List.mem_append.mpr (Or.inl (self_mem_prefixesOf hp)))
    · cases ev with
      | mkdir q => rw [dirsAfter]; exact ih _ h'
      | write t c => rw [dirsAfter]; exact ih _ h'

theorem runMkdirs_all_mkdir (bad : List String → Bool) (ps : List (List String)) :
    ((runMkdirs bad ps).1).all Event.isMkdir = true := by
  induction ps with
  | nil => rfl
  | cons p ps ih =>
    rw [runMkdirs]
    by_cases h : bad p = true
    · rw [if_pos h]; rfl
    · rw [if_neg h]
      simp only [List.all_cons, Bool.and_eq_true]
      exact ⟨rfl, ih⟩

theorem runMkdirs_ok {bad : List String → Bool} {ps : List (List String)}
    (h : (runMkdirs bad ps).2 = none) :
    (runMkdirs bad ps).1 = ps.map Event.mkdir := by
  induction ps with
  | nil => rfl
  | cons p ps ih =>
    rw [runMkdirs] at h ⊢
    by_cases hb : bad p = true
    · rw [if_pos hb] at h; simp at h
    · rw [if_neg hb] at h ⊢
      simp only [] at h ⊢
      rw [List.map_cons, ih h]

theorem writesSafe_writes {α : Type} (t : α → List String) (c : α → List Nat)
    (l : List α) (dirs : List (List String))
    (h : ∀ r ∈ l, (t r).dropLast ∈ dirs ∨ (t r).dropLast = []) :
    writesSafe dirs (l.map (fun r => Event.write (t r) (c r))) = true := by
  induction l with
  | nil => rfl
  | cons r l ih =>
    rw [List.map_cons, writesSafe, Bool.and_eq_true]
    refine ⟨?_, ih (fun r' hr' => h r' (by simp [hr']))⟩
    rcases h r (by simp) with h1 | h2
    · exact Bool.or_eq_true_iff.mpr (Or.inl (decide_eq_true h1))
    · exact Bool.or_eq_true_iff.mpr (Or.inr (decide_eq_true h2))

theorem all_isWrite_dropWhile {l : List Event}
    (h : l.all Event.isWrite = true) :
    (l.dropWhile Event.isMkdir).all Event.isWrite = true := by
  cases l with
  | nil => rfl
  | cons ev l =>
    rw [List.all_cons, Bool.and_eq_true] at h
    cases ev with
    | mkdir p => simp [Event.isWrite] at h
    | write t c =>
      rw [List.dropWhile_cons_of_neg (by simp [Event.isMkdir])]
      rw [List.all_cons, Bool.and_eq_true]
      exact ⟨h.1, h.2⟩

theorem dropWhile_eq_nil_of_all {l : List Event}
    (h : l.all Event.isMkdir = true) : l.dropWhile Event.isMkdir = [] := by
  induction l with
  | nil => rfl
  | cons ev l ih =>
    rw [List.all_cons, Bool.and_eq_true] at h
    rw [List.dropWhile_cons_of_pos h.1]
    exact ih h.2

theorem dropWhile_append_of_all {l m : List Event}
    (h : l.all Event.isMkdir = true) :
    (l ++ m).dropWhile Event.isMkdir = m.dropWhile Event.isMkdir := by
  induction l with
  | nil => rfl
  | cons ev l ih =>
    rw [List.all_cons, Bool.and_eq_true] at h
    rw [List.cons_append, List.dropWhile_cons_of_pos h.1]
    exact ih h.2

/-- The three temporal facts about `extract_zip`'s trace: mkdir calls form a
prefix of the trace (all writes come after), a directory-creation failure
means no write was ever attempted, and every write happens when its
target's parent directory already exists. -/
theorem extractEventsE_safe (bad : List String → Bool) (dest : List String)
    (entries : List ZEntry) :
    (((extractEventsE bad dest entries).1.dropWhile Event.isMkdir).all
        Event.isWrite = true)
    ∧ ((extractEventsE bad dest entries).2.isSome = true →
        (extractEventsE bad dest entries).1.all Event.isMkdir = true)
    ∧ writesSafe [] (extractEventsE bad dest entries).1 = true := by
  have hall1 := runMkdirs_all_mkdir bad
    ((collectEntries entries).1.map (fun d => joinName dest d))
  have hall2 := runMkdirs_all_mkdir bad
    ((collectEntries entries).2.filterMap (fun r => parentDir (joinName dest r.1)))
  simp only [extractEventsE]
  cases hr1 : (runMkdirs bad
      ((collectEntries entries).1.map (fun d => joinName dest d))).2 with
  | some e =>
    simp only [hr1]
    exact ⟨by rw [dropWhile_eq_nil_of_all hall1]; rfl,
      fun _ => hall1, writesSafe_of_all_mkdir hall1 _⟩
  | none =>
    simp only [hr1]
    cases hr2 : (runMkdirs bad
        ((collectEntries entries).2.filterMap
          (fun r => parentDir (joinName dest r.1)))).2 with
    | some e =>
      simp only [hr2]
      have hall12 : ((runMkdirs bad
          ((collectEntries entries).1.map (fun d => joinName dest d))).1 ++
          (runMkdirs bad
            ((collectEntries entries).2.filterMap
              (fun r => parentDir (joinName dest r.1)))).1).all
          Event.isMkdir = true := by
        rw [List.all_append, Bool.and_eq_true]
        exact ⟨hall1, hall2⟩
      exact ⟨by rw [dropWhile_eq_nil_of_all hall12]; rfl,
        fun _ => hall12, writesSafe_of_all_mkdir hall12 _⟩
    | none =>
      simp only [hr2]
      refine ⟨?_, ?_, ?_⟩
      · rw [List.append_assoc, dropWhile_append_of_all hall1,
          dropWhile_append_of_all hall2]
        apply all_isWrite_dropWhile
        simp only [List.all_eq_true, List.mem_map]
        rintro ev ⟨r, _, rfl⟩
        rfl
      · intro h; simp at h
      · rw [List.append_assoc, writesSafe_append, Bool.and_eq_true]
        refine ⟨writesSafe_of_all_mkdir hall1 _, ?_⟩
        rw [writesSafe_append, Bool.and_eq_true]
        refine ⟨writesSafe_of_all_mkdir hall2 _, ?_⟩
        apply writesSafe_writes
        intro r hr
        by_cases hj : joinName dest r.1 = []
        · right; rw [hj]; rfl
        · have hparent : parentDir (joinName dest r.1) =
              some (joinName dest r.1).dropLast := parentDir_ne_nil hj
          have hmem : (joinName dest r.1).dropLast ∈
              (collectEntries entries).2.filterMap
                (fun r => parentDir (joinName dest r.1)) :=
            List.mem_filterMap.mpr ⟨r, hr, hparent⟩
          by_cases hdl : (joinName dest r.1).dropLast = []
          · right; exact hdl
          · left
            have hmk : Event.mkdir (joinName dest r.1).dropLast ∈
                (runMkdirs bad
                  ((collectEntries entries).2.filterMap
                    (fun r => parentDir (joinName dest r.1)))).1 := by
              rw [runMkdirs_ok hr2]
              exact List.mem_map_of_mem _ hmem
            exact mem_dirsAfter_of_mkdir _ hdl _ hmk

/-- Membership of a named child in a listing. -/
def kidMem (n : String) (t : FTree) : Kids → Prop
  | .nil => False
  | .cons m s rest => (n = m ∧ t = s) ∨ kidMem n t rest

theorem mem_dirTargets {n : String} {t : FTree} {dst : List String} :
    ∀ ch : Kids, kidMem n t ch → t.isDirNode = true →
      (dst ++ [n]) ∈ dirTargets ch dst
  | .cons m s rest, h, hdir => by
    rcases h with ⟨rfl, rfl⟩ | h'
    · cases t with
      | file c => simp [FTree.isDirNode] at hdir
      | dir ch' => rw [dirTargets]; exact List.mem_cons_self _ _
    · cases s with
      | file c => rw [dirTargets]; exact mem_dirTargets rest h' hdir
      | dir ch' =>
        rw [dirTargets]
        exact List.mem_cons.mpr (Or.inr (mem_dirTargets rest h' hdir))

mutual
theorem copyEventsE_safe (bad : List String → Bool) :
    ∀ (t : FTree) (dst : List String) (dirs : List (List String)),
      (∀ ch, t = FTree.dir ch → dst ∈ dirs) →
      (∀ c, t = FTree.file c → dst.dropLast ∈ dirs ∨ dst.dropLast = []) →
      writesSafe dirs (copyEventsE bad t dst).1 = true
  | .file c, dst, dirs, _, hf => by
    rcases hf c rfl with h1 | h2
    · simp [copyEventsE, writesSafe, h1]
    · simp [copyEventsE, writesSafe, h2]
  | .dir ch, dst, dirs, hd, _ => by
    have hall1 := runMkdirs_all_mkdir bad (dirTargets ch dst)
    simp only [copyEventsE]
    cases hr1 : (runMkdirs bad (dirTargets ch dst)).2 with
    | some e =>
      simp only [hr1]
      exact writesSafe_of_all_mkdir hall1 _
    | none =>
      simp only [hr1]
      rw [writesSafe_append, Bool.and_eq_true]
      refine ⟨writesSafe_of_all_mkdir hall1 _, ?_⟩
      apply copyKidsE_safe bad ch dst (dirsAfter dirs (runMkdirs bad (dirTargets ch dst)).1)
      · exact subset_dirsAfter _ _ (hd ch rfl)
      · intro n t hkt hdir
        apply mem_dirsAfter_of_mkdir _ (by simp) _
        rw [runMkdirs_ok hr1]
        exact List.mem_map_of_mem _ (mem_dirTargets ch hkt hdir)

theorem copyKidsE_safe (bad : List String → Bool) :
    ∀ (ch : Kids) (dst : List String) (dirs : List (List String)),
      dst ∈ dirs →
      (∀ n t, kidMem n t ch → t.isDirNode = true → dst ++ [n] ∈ dirs) →
      writesSafe dirs (copyKidsE bad ch dst).1 = true
  | .nil, _, _, _, _ => rfl
  | .cons n t rest, dst, dirs, hdst, hkids => by
    simp only [copyKidsE]
    rw [writesSafe_append, Bool.and_eq_true]
    constructor
    · apply copyEventsE_safe bad t (dst ++ [n]) dirs
      · intro ch' ht
        exact hkids n t (Or.inl ⟨rfl, rfl⟩) (by rw [ht]; rfl)
      · intro c ht
        left
        rw [dropLast_append_left (by simp)]
        simpa using hdst
    · apply copyKidsE_safe bad rest dst
      · exact subset_dirsAfter _ _ hdst
      · intro m s hms hdir
        exact subset_dirsAfter _ _ (hkids m s (Or.inr hms) hdir)
end

/-- A directory-creation failure at a level of `copy_dir_recursive` stops
that level before its fan-out: the level's trace is mkdir calls only. -/
theorem copyEventsE_dirfail (bad : List String → Bool) (ch : Kids)
    (dst : List String)
    (h : ((runMkdirs bad (dirTargets ch dst)).2).isSome = true) :
    ((copyEventsE bad (FTree.dir ch) dst).1).all Event.isMkdir = true := by
  simp only [copyEventsE]
  cases hr1 : (runMkdirs bad (dirTargets ch dst)).2 with
  | some e =>
    simp only [hr1]
    exact runMkdirs_all_mkdir bad _
  | none => rw [hr1] at h; simp at h

/-! ### Untouched-path lemmas for the tree copier -/

theorem isPrefixOf_refl (l : List String) : l.isPrefixOf l = true :=
  List.isPrefixOf_iff_prefix.mpr (List.prefix_refl l)

theorem isPrefixOf_trans {a b c : List String}
    (h1 : a.isPrefixOf b = true) (h2 : b.isPrefixOf c = true) :
    a.isPrefixOf c = true :=
  List.isPrefixOf_iff_prefix.mpr
    ((List.isPrefixOf_iff_prefix.mp h1).trans (List.isPrefixOf_iff_prefix.mp h2))

theorem isPrefixOf_false_of_isPrefixOf_false {a b c : List String}
    (h1 : a.isPrefixOf b = true) (h2 : a.isPrefixOf c = false) :
    b.isPrefixOf c = false := by
  cases hb : b.isPrefixOf c with
  | false => rfl
  | true => rw [isPrefixOf_trans h1 hb] at h2; cases h2

theorem isPrefixOf_concat_ne {dst : List String} {m n : String} (h : m ≠ n)
    (rel : List String) :
    (dst ++ [m]).isPrefixOf (dst ++ n :: rel) = false := by
  cases hb : (dst ++ [m]).isPrefixOf (dst ++ n :: rel) with
  | false => rfl
  | true =>
    have := List.isPrefixOf_iff_prefix.mp hb
    rw [List.prefix_append_right_inj] at this
    rw [List.cons_prefix_cons] at this
    exact absurd this.1 h

theorem isPrefixOf_concat_self {dst : List String} (n : String) :
    (dst ++ [n]).isPrefixOf dst = false := by
  cases hb : (dst ++ [n]).isPrefixOf dst with
  | false => rfl
  | true =>
    have := (List.isPrefixOf_iff_prefix.mp hb).length_le
    simp at this

theorem WFkids_cons {n : String} {t : FTree} {rest : Kids}
    (h : WFkids (Kids.cons n t rest) = true) :
    niceComp n = true ∧ (kidsNames rest).contains n = false ∧
      WFtree t = true ∧ WFkids rest = true := by
  rw [WFkids, Bool.and_eq_true, Bool.and_eq_true, Bool.and_eq_true] at h
  refine ⟨h.1.1.1, ?_, h.1.2, h.2⟩
  have := h.1.1.2
  cases hc : (kidsNames rest).contains n with
  | false => rfl
  | true => rw [hc] at this; cases this

theorem nicePath_concat {dst : List String} {n : String}
    (hdst : nicePath dst = true) (hn : niceComp n = true) :
    nicePath (dst ++ [n]) = true := by
  apply nicePath_append hdst
  simp [nicePath, hn]

theorem files_mkdirPhase : ∀ (ch : Kids) (dst : List String) (fs : FS),
    (mkdirPhase ch dst fs).files = fs.files
  | .nil, _, _ => rfl
  | .cons n t rest, dst, fs => by
    cases t with
    | file c => rw [mkdirPhase]; exact files_mkdirPhase rest dst fs
    | dir ch' => rw [mkdirPhase]; exact files_mkdirPhase rest dst _

theorem fileAt_mkdirPhase (ch : Kids) (dst : List String) (fs : FS)
    (p : List String) : fileAt (mkdirPhase ch dst fs) p = fileAt fs p := by
  rw [fileAt, files_mkdirPhase]; rfl

mutual
/-- The recursive copier never touches a file outside its destination
subtree. -/
theorem copy_fileAt_outside :
    ∀ (t : FTree) (dst : List String) (fs : FS) (p : List String),
      WFtree t = true → nicePath dst = true → dst.isPrefixOf p = false →
      fileAt (copy_dir_recursive t dst fs) p = fileAt fs p
  | .file c, dst, fs, p, _, hnice, hout => by
    rw [copy_dir_recursive]
    apply fileAt_writeFile_ne
    rw [resolvePath_nice _ hnice]
    intro hpd
    rw [hpd, isPrefixOf_refl] at hout
    cases hout
  | .dir ch, dst, fs, p, hwf, hnice, hout => by
    rw [copy_dir_recursive]
    rw [copyKids_fileAt_away ch dst _ p hwf hnice
      (fun m _ => isPrefixOf_false_of_isPrefixOf_false (isPrefixOf_append dst [m]) hout)]
    exact fileAt_mkdirPhase _ _ _ _

/-- The fan-out of a level never touches a file that lies under none of
the level's child paths. -/
theorem copyKids_fileAt_away :
    ∀ (ch : Kids) (dst : List String) (fs : FS) (p : List String),
      WFkids ch = true → nicePath dst = true →
      (∀ m ∈ kidsNames ch, (dst ++ [m]).isPrefixOf p = false) →
      fileAt (copyKids ch dst fs) p = fileAt fs p
  | .nil, _, _, _, _, _, _ => rfl
  | .cons n t rest, dst, fs, p, hwf, hnice, haway => by
    obtain ⟨hn, _, hwt, hwr⟩ := WFkids_cons hwf
    rw [copyKids]
    rw [copyKids_fileAt_away rest dst _ p hwr hnice
      (fun m hm => haway m (by rw [kidsNames]; exact List.mem_cons.mpr (Or.inr hm)))]
    exact copy_fileAt_outside t (dst ++ [n]) fs p hwt (nicePath_concat hnice hn)
      (haway n (by rw [kidsNames]; exact List.mem_cons_self _ _))
end

theorem not_mem_of_contains_false {n : String} {l : List String}
    (h : l.contains n = false) : n ∉ l := by
  intro hm
  rw [List.contains, List.elem_eq_true_of_mem hm] at h
  cases h

mutual
/-- Every file of the source tree ends up, byte-identical, at its
corresponding path under the destination. -/
theorem copy_fileAt_mem :
    ∀ (t : FTree) (dst : List String) (fs : FS) (rel : List String) (c : List Nat),
      WFtree t = true → nicePath dst = true → (rel, c) ∈ treeFiles t →
      fileAt (copy_dir_recursive t dst fs) (dst ++ rel) = some c
  | .file c', dst, fs, rel, c, _, hnice, hmem => by
    rw [treeFiles, List.mem_singleton, Prod.mk.injEq] at hmem
    rw [copy_dir_recursive, hmem.1, List.append_nil, hmem.2]
    have := fileAt_writeFile_self dst c' fs
    rw [resolvePath_nice _ hnice] at this
    exact this
  | .dir ch, dst, fs, rel, c, hwf, hnice, hmem => by
    rw [WFtree] at hwf
    rw [treeFiles] at hmem
    rw [copy_dir_recursive]
    exact copyKids_fileAt_mem ch dst _ rel c hwf hnice hmem

theorem copyKids_fileAt_mem :
    ∀ (ch : Kids) (dst : List String) (fs : FS) (rel : List String) (c : List Nat),
      WFkids ch = true → nicePath dst = true → (rel, c) ∈ kidsFiles ch →
      fileAt (copyKids ch dst fs) (dst ++ rel) = some c
  | .nil, _, _, _, _, _, _, hmem => by rw [kidsFiles] at hmem; cases hmem
  | .cons n t rest, dst, fs, rel, c, hwf, hnice, hmem => by
    obtain ⟨hn, hnc, hwt, hwr⟩ := WFkids_cons hwf
    rw [kidsFiles] at hmem
    rw [copyKids]
    rcases List.mem_append.mp hmem with hl | hr
    · obtain ⟨⟨rel', c'⟩, hq, heq⟩ := List.mem_map.mp hl
      injection heq with h1 h2
      subst h1
      subst h2
      have hnn : n ∉ kidsNames rest := not_mem_of_contains_false hnc
      rw [copyKids_fileAt_away rest dst _ _ hwr hnice
        (fun m hm => isPrefixOf_concat_ne (fun h => hnn (by rw [← h]; exact hm)) rel')]
      have hpath : dst ++ n :: rel' = dst ++ [n] ++ rel' := by simp
      rw [hpath]
      exact copy_fileAt_mem t (dst ++ [n]) fs rel' c' hwt
        (nicePath_concat hnice hn) hq
    · exact copyKids_fileAt_mem rest dst _ rel c hwr hnice hr
end

mutual
/-- A path under the destination that corresponds to no file of the source
tree is untouched by the copy. -/
theorem copy_fileAt_nojunk :
    ∀ (t : FTree) (dst : List String) (fs : FS) (rel : List String),
      WFtree t = true → nicePath dst = true →
      (∀ c, (rel, c) ∉ treeFiles t) →
      fileAt (copy_dir_recursive t dst fs) (dst ++ rel) = fileAt fs (dst ++ rel)
  | .file c', dst, fs, rel, _, hnice, hnm => by
    rw [copy_dir_recursive]
    apply fileAt_writeFile_ne
    rw [resolvePath_nice _ hnice]
    intro heq
    have hlen := congrArg List.length heq
    rw [List.length_append] at hlen
    have hrel : rel = [] := List.length_eq_zero.mp (by omega)
    exact hnm c' (by rw [hrel, treeFiles]; exact List.mem_singleton.mpr rfl)
  | .dir ch, dst, fs, rel, hwf, hnice, hnm => by
    rw [WFtree] at hwf
    rw [copy_dir_recursive]
    rw [copyKids_fileAt_nojunk ch dst _ rel hwf hnice
      (fun c hc => hnm c (by rw [treeFiles]; exact hc))]
    exact fileAt_mkdirPhase _ _ _ _

theorem copyKids_fileAt_nojunk :
    ∀ (ch : Kids) (dst : List String) (fs : FS) (rel : List String),
      WFkids ch = true → nicePath dst = true →
      (∀ c, (rel, c) ∉ kidsFiles ch) →
      fileAt (copyKids ch dst fs) (dst ++ rel) = fileAt fs (dst ++ rel)
  | .nil, _, _, _, _, _, _ => rfl
  | .cons n t rest, dst, fs, rel, hwf, hnice, hnm => by
    obtain ⟨hn, hnc, hwt, hwr⟩ := WFkids_cons hwf
    rw [copyKids]
    rw [copyKids_fileAt_nojunk rest dst _ rel hwr hnice
      (fun c hc => hnm c (by rw [kidsFiles]; exact List.mem_append.mpr (Or.inr hc)))]
    cases rel with
    | nil =>
      have h := copy_fileAt_outside t (dst ++ [n]) fs (dst ++ [])
        hwt (nicePath_concat hnice hn)
        (by rw [List.append_nil]; exact isPrefixOf_concat_self n)
      exact h
    | cons m rel' =>
      by_cases hmn : m = n
      · subst hmn
        have hpath : dst ++ m :: rel' = dst ++ [m] ++ rel' := by simp
        rw [hpath]
        exact copy_fileAt_nojunk t (dst ++ [m]) fs rel' hwt
          (nicePath_concat hnice hn)
          (fun c hc => hnm c (by
            rw [kidsFiles]
            exact List.mem_append.mpr (Or.inl (List.mem_map_of_mem _ hc))))
      · exact copy_fileAt_outside t (dst ++ [n]) fs _ hwt
          (nicePath_concat hnice hn)
          (isPrefixOf_concat_ne (fun h => hmn h.symm) rel')
end

/-! ### Replace semantics of `copy_directory` -/

theorem fileAt_removeDirAll_under {target p : List String} (fs : FS)
    (h : (resolvePath target).isPrefixOf p = true) :
    fileAt (removeDirAll target fs) p = none := by
  apply lookupFile_eq_none_iff.mpr
  intro x hx
  obtain ⟨_, hpred⟩ := List.mem_filter.mp hx
  intro heq
  rw [heq, h] at hpred
  cases hpred

theorem dirs_removeDirAll_not_under {target d : List String} (fs : FS)
    (hd : d ∈ (removeDirAll target fs).dirs) :
    (resolvePath target).isPrefixOf d = false := by
  obtain ⟨_, hpred⟩ := List.mem_filter.mp hd
  cases hb : (resolvePath target).isPrefixOf d with
  | false => rfl
  | true => rw [hb] at hpred; cases hpred

theorem isPrefixOf_antisymm {a b : List String}
    (h1 : a.isPrefixOf b = true) (h2 : b.isPrefixOf a = true) : a = b := by
  have p1 := List.isPrefixOf_iff_prefix.mp h1
  have p2 := List.isPrefixOf_iff_prefix.mp h2
  exact p1.eq_of_length (Nat.le_antisymm p1.length_le p2.length_le)

/-! ### Characterization of the classifier's pass -/

theorem foldl_analyzeStep_file_list (names : List String) :
    ∀ acc, (names.foldl analyzeStep acc).file_list =
      acc.file_list ++ names.filter (fun n => !skipEntry n) := by
  induction names with
  | nil => intro acc; simp
  | cons n names ih =>
    intro acc
    rw [List.foldl_cons]
    by_cases h : skipEntry n = true
    · rw [List.filter_cons_of_neg (by simp [h])]
      rw [show analyzeStep acc n = acc from by rw [analyzeStep, if_pos h]]
      exact ih acc
    · rw [List.filter_cons_of_pos (by simp [h]), ih]
      rw [analyzeStep, if_neg h]
      simp

theorem foldl_analyzeStep_susp (names : List String) :
    ∀ acc, (names.foldl analyzeStep acc).suspicious_files =
      acc.suspicious_files ++
        names.filter (fun n => !skipEntry n && isSuspicious (lowerStr n)) := by
  induction names with
  | nil => intro acc; simp
  | cons n names ih =>
    intro acc
    rw [List.foldl_cons]
    by_cases h : skipEntry n = true
    · rw [List.filter_cons_of_neg (by simp [h])]
      rw [show analyzeStep acc n = acc from by rw [analyzeStep, if_pos h]]
      exact ih acc
    · by_cases hs : isSuspicious (lowerStr n) = true
      · rw [List.filter_cons_of_pos (by simp [h, hs]), ih]
        rw [analyzeStep, if_neg h]
        simp [hs]
      · rw [List.filter_cons_of_neg (by simp [h, hs]), ih]
        rw [analyzeStep, if_neg h]
        simp [hs]

theorem foldl_analyzeStep_package (names : List String) :
    ∀ acc, (names.foldl analyzeStep acc).has_package_files =
      (acc.has_package_files ||
        names.any (fun n => !skipEntry n && endsWithStr (lowerStr n) ".package")) := by
  induction names with
  | nil => intro acc; simp
  | cons n names ih =>
    intro acc
    rw [List.foldl_cons, List.any_cons, ih]
    by_cases h : skipEntry n = true
    · rw [show analyzeStep acc n = acc from by rw [analyzeStep, if_pos h]]
      simp [h]
    · rw [analyzeStep, if_neg h]
      simp only [Bool.not_eq_true] at h
      simp [h, Bool.or_assoc]

theorem foldl_analyzeStep_ts (names : List String) :
    ∀ acc, (names.foldl analyzeStep acc).has_ts_script =
      (acc.has_ts_script ||
        names.any (fun n => !skipEntry n && endsWithStr (lowerStr n) ".ts4script")) := by
  induction names with
  | nil => intro acc; simp
  | cons n names ih =>
    intro acc
    rw [List.foldl_cons, List.any_cons, ih]
    by_cases h : skipEntry n = true
    · rw [show analyzeStep acc n = acc from by rw [analyzeStep, if_pos h]]
      simp [h]
    · rw [analyzeStep, if_neg h]
      simp only [Bool.not_eq_true] at h
      simp [h, Bool.or_assoc]

theorem readNames_ok (names : List String) :
    readNames (names.map Except.ok) = Except.ok names := by
  induction names with
  | nil => rfl
  | cons n names ih => rw [List.map_cons, readNames, ih]

/-- Value of `analyze_zip_content` on an archive whose entries all read fine. -/
theorem analyze_entries_ok (names : List String) :
    analyze_zip_content (ZSource.entries (names.map Except.ok)) =
      Except.ok
        { has_package_files := (analyzeLoop names).has_package_files,
          has_ts_script := (analyzeLoop names).has_ts_script,
          file_list := (analyzeLoop names).file_list,
          suspicious_files := (analyzeLoop names).suspicious_files,
          total_files := names.length } := by
  rw [analyze_zip_content, readNames_ok]
  simp

/-! ### Helpers for the failure-free trace -/

theorem runMkdirs_nofail (ps : List (List String)) :
    (runMkdirs (fun _ => false) ps).2 = none := by
  induction ps with
  | nil => rfl
  | cons p ps ih => rw [runMkdirs, if_neg (by simp)]; exact ih

theorem filter_isWrite_of_all_mkdir {l : List Event}
    (h : l.all Event.isMkdir = true) : l.filter Event.isWrite = [] := by
  induction l with
  | nil => rfl
  | cons ev l ih =>
    rw [List.all_cons, Bool.and_eq_true] at h
    cases ev with
    | mkdir p =>
      rw [List.filter_cons_of_neg (by simp [Event.isWrite])]
      exact ih h.2
    | write t c => simp [Event.isMkdir] at h

/-! ### The failure slot: reduction order and soundness -/

theorem foldl_slot_eq (results : List (Except String Unit)) :
    ∀ acc : Option String,
      results.foldl
        (fun slot r =>
          match r with
          | .error e => some e
          | .ok _ => slot) acc =
        match lastError results with
        | some e => some e
        | none => acc := by
  induction results with
  | nil => intro acc; rfl
  | cons r rs ih =>
    intro acc
    rw [List.foldl_cons, ih]
    simp only [lastError]
    cases he : lastError rs with
    | some e => rfl
    | none =>
      cases r with
      | error e => rfl
      | ok u => rfl

/-- The post-join reduction of `copy_dir_recursive` keeps the last error in
result order, not the first. -/
theorem collectResults_eq_lastError (results : List (Except String Unit)) :
    collectResults results = lastError results := by
  rw [collectResults, foldl_slot_eq]
  cases lastError results with
  | none => rfl
  | some e => rfl

theorem lastError_mem :
    ∀ (results : List (Except String Unit)) (e : String),
      lastError results = some e → Except.error e ∈ results := by
  intro results
  induction results with
  | nil => intro e h; cases h
  | cons r rs ih =>
    intro e h
    simp only [lastError] at h
    cases he : lastError rs with
    | some e' =>
      rw [he] at h
      injection h with h'
      subst h'
      exact List.mem_cons.mpr (Or.inr (ih _ he))
    | none =>
      rw [he] at h
      cases r with
      | error e' =>
        injection h with h'
        subst h'
        exact List.mem_cons_self _ _
      | ok u => cases h

theorem wstep_slot_sound (workers : List (Option String)) (s : PState) (i : Nat)
    (h : s.slot = none ∨
      ∃ j e, workers.get? j = some (some e) ∧ s.slot = some e) :
    (wstep workers s i).slot = none ∨
      ∃ j e, workers.get? j = some (some e) ∧ (wstep workers s i).slot = some e := by
  rw [wstep]
  cases hpc : s.pcs.get? i with
  | none => exact h
  | some n =>
    rcases n with _ | _ | n
    · by_cases hs : s.slot.isSome = true
      · rw [if_pos hs]; exact h
      · rw [if_neg hs]; exact h
    · cases hw : workers.get? i with
      | none => exact h
      | some w =>
        cases w with
        | none => exact h
        | some e => exact Or.inr ⟨i, e, hw, rfl⟩
    · exact h

/-- Whatever the interleaving, the slot only ever holds an error some
worker actually produced (never a fabricated one). -/
theorem runSched_slot_sound (workers : List (Option String)) (sched : List Nat) :
    ∀ s, (s.slot = none ∨
        ∃ j e, workers.get? j = some (some e) ∧ s.slot = some e) →
      ((runSched workers sched s).slot = none ∨
        ∃ j e, workers.get? j = some (some e) ∧
          (runSched workers sched s).slot = some e) := by
  induction sched with
  | nil => intro s h; exact h
  | cons i sched ih =>
    intro s h
    rw [runSched, List.foldl_cons]
    exact ih _ (wstep_slot_sound workers s i h)

theorem any_eq_false_of {α : Type} {p : α → Bool} {l : List α}
    (h : ∀ x ∈ l, p x = false) : l.any p = false := by
  induction l with
  | nil => rfl
  | cons x xs ih =>
    rw [List.any_cons, h x (by simp), Bool.false_or]
    exact ih (fun y hy => h y (by simp [hy]))

theorem filter_length_lt {p : String → Bool} {l : List String} {x : String}
    (hx : x ∈ l) (hpx : p x = false) : (l.filter p).length < l.length := by
  induction l with
  | nil => cases hx
  | cons y ys ih =>
    rcases List.mem_cons.mp hx with rfl | hx'
    · rw [List.filter_cons_of_neg (by simp [hpx])]
      have := List.length_filter_le p ys
      simp only [List.length_cons]
      omega
    · by_cases hy : p y = true
      · rw [List.filter_cons_of_pos hy]
        simp only [List.length_cons]
        exact Nat.succ_lt_succ (ih hx')
      · rw [List.filter_cons_of_neg (by simpa using hy)]
        have := ih hx'
        simp only [List.length_cons]
        omega

theorem strData_append (a b : String) : (a ++ b).data = a.data ++ b.data := by
  cases a
  cases b
  rfl

theorem isPrefixOfChars_append (l m : List Char) : l.isPrefixOf (l ++ m) = true := by
  induction l with
  | nil => simp [List.isPrefixOf]
  | cons c cs ih =>
    rw [List.cons_append]
    simp [List.isPrefixOf, ih]

theorem prefixStr_append (p m : String) : prefixStr p (p ++ m) = true := by
  rw [prefixStr, strData_append]
  exact isPrefixOfChars_append _ _

/-! ### Claims -/

/-- C1 (counterexample): the completeness claim quantifies over every
archive and destination, but a destination that already holds a regular
file keeps it: extracting a one-file archive (N = 1) over a destination
with one pre-existing file leaves two regular files under it, not one. -/
theorem claim_C1_counterexample :
    countFilesUnder ["d"]
        (extract_zip ["d"] [⟨"a.bin", [1, 2]⟩] ⟨[(["d", "old"], [9])], [["d"]]⟩) = 2
    ∧ (collectEntries [(⟨"a.bin", [1, 2]⟩ : ZEntry)]).2.length = 1 := by
  decide

/-- C1 (amended): for an archive whose entry names are relative, have
nonempty `"."`/`".."`-free components and pairwise-distinct file paths,
extracted into a destination under which no regular file exists yet, a
successful `extract_zip` leaves exactly N regular files under the
destination, each byte-identical to its archive entry, and at least M
distinct directories (the explicit directory entries plus the inferred
parent directory of every file entry). -/
theorem claim_C1 (dest : List String) (entries : List ZEntry) (fs : FS)
    (hdest : nicePath dest = true) (hdne : dest ≠ [])
    (hnames : ∀ e ∈ entries, startsSlash e.name = false ∧ splitP e.name ≠ [] ∧
      nicePath (splitP e.name) = true)
    (hnodup : ((collectEntries entries).2.map (fun r => splitP r.1)).Nodup)
    (hempty : ∀ p, dest.isPrefixOf p = true → fileAt fs p = none) :
    countFilesUnder dest (extract_zip dest entries fs)
        = (collectEntries entries).2.length
    ∧ (∀ r ∈ (collectEntries entries).2,
        fileAt (extract_zip dest entries fs) (dest ++ splitP r.1) = some r.2)
    ∧ (inferredDirs dest entries).dedup.length
        ≤ countDirsUnder dest (extract_zip dest entries fs) :=
  extract_zip_complete dest entries fs hdest hdne hnames hnodup hempty

/-- Witness for C1: the spec's concrete scenario, an archive
`["a/", "a/data.bin", "b.lnk"]` extracted into an empty destination. -/
theorem claim_C1_witness :
    countFilesUnder ["d"]
        (extract_zip ["d"]
          [⟨"a/", []⟩, ⟨"a/data.bin", [1, 2, 3]⟩, ⟨"b.lnk", []⟩] ⟨[], []⟩) = 2
    ∧ fileAt
        (extract_zip ["d"]
          [⟨"a/", []⟩, ⟨"a/data.bin", [1, 2, 3]⟩, ⟨"b.lnk", []⟩] ⟨[], []⟩)
        ["d", "a", "data.bin"] = some [1, 2, 3]
    ∧ 2 ≤ countDirsUnder ["d"]
        (extract_zip ["d"]
          [⟨"a/", []⟩, ⟨"a/data.bin", [1, 2, 3]⟩, ⟨"b.lnk", []⟩] ⟨[], []⟩) := by
  have h := claim_C1 ["d"]
    [⟨"a/", []⟩, ⟨"a/data.bin", [1, 2, 3]⟩, ⟨"b.lnk", []⟩] ⟨[], []⟩
    (by decide) (by decide) (by decide) (by decide) (fun p _ => rfl)
  obtain ⟨h1, h2, h3⟩ := h
  refine ⟨?_, ?_, ?_⟩
  · rw [h1]; decide
  · have hm := h2 ("a/data.bin", [1, 2, 3]) (by decide)
    have hp : (["d"] ++ splitP "a/data.bin") = ["d", "a", "data.bin"] := by decide
    rw [hp] at hm
    exact hm
  · have he : (inferredDirs ["d"]
        [⟨"a/", []⟩, ⟨"a/data.bin", [1, 2, 3]⟩, ⟨"b.lnk", []⟩]).dedup.length = 2 := by
      decide
    rw [← he]
    exact h3

/-- C2 (counterexample): the slot is not write-once. In `extract_zip`'s
fan-out, worker 0 and worker 1 both pass the empty-slot check, then worker
0 records `"e1"`; when worker 1's write later fails it overwrites the slot
with `"e2"`. In `copy_dir_recursive`'s post-join reduction, the second
error overwrites the first: the reported error is the last one, not the
first. -/
theorem claim_C2_counterexample :
    (runSched [some "e1", some "e2"] [0, 1, 0]
        (initState [some "e1", some "e2"])).slot = some "e1"
    ∧ (runSched [some "e1", some "e2"] [0, 1, 0, 1]
        (initState [some "e1", some "e2"])).slot = some "e2"
    ∧ collectResults [Except.error "a", Except.error "b"] = some "b" := by
  decide

/-- C2 (amended): the slot is not first-error-wins. The post-join reduction
of `copy_dir_recursive` reports the LAST error in result order; any error
it reports was really produced by some unit; and in `extract_zip`'s
fan-out, under every interleaving the slot ends either empty or holding an
error some worker actually produced — but a worker that fails stores its
error unconditionally, so a later failure may replace an earlier one (see
the counterexample). -/
theorem claim_C2 :
    (∀ results : List (Except String Unit),
      collectResults results = lastError results)
    ∧ (∀ (results : List (Except String Unit)) (e : String),
        lastError results = some e → Except.error e ∈ results)
    ∧ (∀ (workers : List (Option String)) (sched : List Nat),
        (runSched workers sched (initState workers)).slot = none ∨
          ∃ j e, workers.get? j = some (some e) ∧
            (runSched workers sched (initState workers)).slot = some e) :=
  ⟨collectResults_eq_lastError, lastError_mem,
    fun workers sched => runSched_slot_sound workers sched _ (Or.inl rfl)⟩

/-- Witness for C2 at concrete inputs. -/
theorem claim_C2_witness :
    collectResults [Except.error "a", Except.error "b"]
        = lastError [Except.error "a", Except.error "b"]
    ∧ lastError [Except.error "a", Except.error "b"] = some "b"
    ∧ (Except.error "b" : Except String Unit) ∈
        ([Except.error "a", Except.error "b"] : List (Except String Unit))
    ∧ ((runSched [some "x"] [0, 0] (initState [some "x"])).slot = none ∨
        ∃ j e, [some "x"].get? j = some (some e) ∧
          (runSched [some "x"] [0, 0] (initState [some "x"])).slot = some e) :=
  ⟨claim_C2.1 _, by decide, claim_C2.2.1 _ "b" (by decide),
    claim_C2.2.2 [some "x"] [0, 0]⟩

/-- C3: in both pipelines no file write happens before every directory
needed to hold it exists. For `extract_zip`: the trace is mkdir calls
followed by writes, a directory-creation failure leaves a trace with no
write at all, and every write's target parent was mkdir'ed earlier. For
`copy_dir_recursive` at each level: the whole trace only writes into
directories already created (the level root given, subdirectories created
in the sequential sub-phase first), and a directory-creation failure at a
level produces a trace of mkdir calls only. -/
theorem claim_C3 :
    (∀ (bad : List String → Bool) (dest : List String) (entries : List ZEntry),
      (((extractEventsE bad dest entries).1.dropWhile Event.isMkdir).all
          Event.isWrite = true)
      ∧ ((extractEventsE bad dest entries).2.isSome = true →
          (extractEventsE bad dest entries).1.all Event.isMkdir = true)
      ∧ writesSafe [] (extractEventsE bad dest entries).1 = true)
    ∧ (∀ (bad : List String → Bool) (ch : Kids) (dst : List String),
        writesSafe [dst] (copyEventsE bad (FTree.dir ch) dst).1 = true)
    ∧ (∀ (bad : List String → Bool) (ch : Kids) (dst : List String),
        ((runMkdirs bad (dirTargets ch dst)).2).isSome = true →
        ((copyEventsE bad (FTree.dir ch) dst).1).all Event.isMkdir = true) :=
  ⟨extractEventsE_safe,
    fun bad ch dst =>
      copyEventsE_safe bad (FTree.dir ch) dst [dst]
        (fun _ _ => List.mem_singleton.mpr rfl) (fun _ h => nomatch h),
    copyEventsE_dirfail⟩

/-- Witness for C3: a failing directory creation aborts the extraction and
the copy level before any write, and the successful traces are
write-safe. -/
theorem claim_C3_witness :
    ((extractEventsE (fun p => p == ["d", "x"]) ["d"]
        [⟨"x/", []⟩, ⟨"y.bin", [1]⟩]).2).isSome = true
    ∧ (extractEventsE (fun p => p == ["d", "x"]) ["d"]
        [⟨"x/", []⟩, ⟨"y.bin", [1]⟩]).1.all Event.isMkdir = true
    ∧ writesSafe []
        (extractEventsE (fun p => p == ["d", "x"]) ["d"]
          [⟨"x/", []⟩, ⟨"y.bin", [1]⟩]).1 = true
    ∧ writesSafe [["t"]]
        (copyEventsE (fun p => p == ["d", "x"])
          (FTree.dir (Kids.cons "a.bin" (FTree.file [5]) Kids.nil)) ["t"]).1 = true
    ∧ ((runMkdirs (fun p => p == ["d", "x"])
        (dirTargets (Kids.cons "x" (FTree.dir Kids.nil) Kids.nil) ["d"])).2).isSome
        = true
    ∧ ((copyEventsE (fun p => p == ["d", "x"])
        (FTree.dir (Kids.cons "x" (FTree.dir Kids.nil) Kids.nil)) ["d"]).1).all
        Event.isMkdir = true := by
  refine ⟨by decide, ?_, ?_, ?_, by decide, ?_⟩
  · exact (claim_C3.1 _ _ _).2.1 (by decide)
  · exact (claim_C3.1 _ _ _).2.2
  · exact claim_C3.2.1 _ _ _
  · exact claim_C3.2.2 _ _ _ (by decide)

/-- C4: replace semantics of `copy_directory`. When the destination root
already exists, a successful call leaves under it exactly the files of the
source tree — a path under the destination holds content `c` precisely
when the source has that file — so no pre-existing unrelated file
survives. -/
theorem claim_C4 (t : FTree) (target : List String) (fs : FS)
    (hwf : WFtree t = true) (hnice : nicePath target = true)
    (hex : existsAt fs target = true) :
    (copy_directory (some t) target fs).2 = none
    ∧ ∀ rel c,
        fileAt (copy_directory (some t) target fs).1 (target ++ rel) = some c
          ↔ (rel, c) ∈ treeFiles t := by
  have hred : copy_directory (some t) target fs =
      (copy_dir_recursive t target (mkdirAll target (removeDirAll target fs)),
        none) := by
    simp only [copy_directory, hex]
    rfl
  rw [hred]
  refine ⟨rfl, ?_⟩
  show ∀ rel c,
    fileAt (copy_dir_recursive t target (mkdirAll target (removeDirAll target fs)))
      (target ++ rel) = some c ↔ (rel, c) ∈ treeFiles t
  intro rel c
  have hnone : ∀ rel' : List String,
      fileAt (mkdirAll target (removeDirAll target fs)) (target ++ rel') = none := by
    intro rel'
    rw [fileAt_mkdirAll]
    exact fileAt_removeDirAll_under fs
      (by rw [resolvePath_nice _ hnice]; exact isPrefixOf_append _ _)
  constructor
  · intro hsome
    by_cases hext : ∃ c', (rel, c') ∈ treeFiles t
    · obtain ⟨c', hc'⟩ := hext
      have h2 := copy_fileAt_mem t target (mkdirAll target (removeDirAll target fs))
        rel c' hwf hnice hc'
      rw [hsome] at h2
      injection h2 with h3
      rw [h3]
      exact hc'
    · push_neg at hext
      rw [copy_fileAt_nojunk t target (mkdirAll target (removeDirAll target fs))
        rel hwf hnice hext, hnone rel] at hsome
      cases hsome
  · intro hmem
    exact copy_fileAt_mem t target (mkdirAll target (removeDirAll target fs))
      rel c hwf hnice hmem

/-- Witness for C4: copying a one-file tree over a destination that holds
an unrelated file `"old"` leaves only the source's file; `"old"` is gone. -/
theorem claim_C4_witness :
    WFtree (FTree.dir (Kids.cons "a.bin" (FTree.file [5]) Kids.nil)) = true
    ∧ existsAt ⟨[(["t", "old"], [9])], [["t"]]⟩ ["t"] = true
    ∧ (copy_directory (some (FTree.dir (Kids.cons "a.bin" (FTree.file [5]) Kids.nil)))
        ["t"] ⟨[(["t", "old"], [9])], [["t"]]⟩).2 = none
    ∧ fileAt (copy_directory
        (some (FTree.dir (Kids.cons "a.bin" (FTree.file [5]) Kids.nil)))
        ["t"] ⟨[(["t", "old"], [9])], [["t"]]⟩).1 ["t", "a.bin"] = some [5]
    ∧ fileAt (copy_directory
        (some (FTree.dir (Kids.cons "a.bin" (FTree.file [5]) Kids.nil)))
        ["t"] ⟨[(["t", "old"], [9])], [["t"]]⟩).1 ["t", "old"] = none := by
  have h := claim_C4 (FTree.dir (Kids.cons "a.bin" (FTree.file [5]) Kids.nil))
    ["t"] ⟨[(["t", "old"], [9])], [["t"]]⟩ (by decide) (by decide) (by decide)
  refine ⟨by decide, by decide, h.1, (h.2 ["a.bin"] [5]).mpr ?_, ?_⟩
  · rw [show treeFiles (FTree.dir (Kids.cons "a.bin" (FTree.file [5]) Kids.nil)) =
      [([ "a.bin" ], [5])] from rfl]
    exact List.mem_singleton.mpr rfl
  · cases hq : fileAt (copy_directory
        (some (FTree.dir (Kids.cons "a.bin" (FTree.file [5]) Kids.nil)))
        ["t"] ⟨[(["t", "old"], [9])], [["t"]]⟩).1 ["t", "old"] with
    | none => rfl
    | some c =>
      have hm := (h.2 ["old"] c).mp hq
      rw [show treeFiles (FTree.dir (Kids.cons "a.bin" (FTree.file [5]) Kids.nil)) =
        [([ "a.bin" ], [5])] from rfl] at hm
      have := List.mem_singleton.mp hm
      injection this with h1 h2
      exact absurd h1 (by decide)

/-- C5 (counterexample): an entry named `"a\\"` — ending in a backward
slash — is recorded by `extract_zip` as a FILE to write (it lands in
`files_to_create`, not `dirs_to_create`), even though the classifier skips
it as a directory marker; the claim that both treat a
backslash-terminated name as a directory entry is false for the
extractor. -/
theorem claim_C5_counterexample :
    (collectEntries [⟨"a\\", [7]⟩]).1 = []
    ∧ (collectEntries [⟨"a\\", [7]⟩]).2 = [("a\\", [7])]
    ∧ skipEntry "a\\" = true := by
  decide

/-- C5 (amended): `extract_zip` classifies an entry as a directory exactly
when its name ends in a FORWARD slash (zero-length content is irrelevant);
a name ending only in a backward slash is treated as a file. The
classifier `analyze_zip_content` skips a name exactly when it ends in a
forward or backward slash. -/
theorem claim_C5 :
    ∀ (es : List ZEntry) (names : List String),
      ((collectEntries es).1 =
        (es.filter (fun e => endsWithStr e.name "/")).map (fun e => e.name))
      ∧ ((collectEntries es).2 =
        (es.filter (fun e => !endsWithStr e.name "/")).map
          (fun e => (e.name, e.content)))
      ∧ ((analyzeLoop names).file_list =
        names.filter (fun n => !(endsWithStr n "/" || endsWithStr n "\\"))) := by
  intro es names
  refine ⟨collectEntries_fst es, collectEntries_snd es, ?_⟩
  rw [analyzeLoop, foldl_analyzeStep_file_list]
  simp [skipEntry]

/-- C6: the classification report never lists a directory-marker name in
`file_list` or `suspicious_files`, its `total_files` is the archive's raw
entry count (markers included), the file listing is never longer than that
count, and it is strictly shorter whenever a marker is present. -/
theorem claim_C6 (names : List String) (r : ZipAnalysis)
    (h : analyze_zip_content (ZSource.entries (names.map Except.ok)) =
      Except.ok r) :
    (∀ n ∈ r.file_list, skipEntry n = false)
    ∧ (∀ n ∈ r.suspicious_files, skipEntry n = false)
    ∧ r.total_files = names.length
    ∧ r.file_list.length ≤ r.total_files
    ∧ ((∃ n ∈ names, skipEntry n = true) →
        r.file_list.length < r.total_files) := by
  rw [analyze_entries_ok] at h
  injection h with h'
  subst h'
  have hfl : (analyzeLoop names).file_list =
      names.filter (fun n => !skipEntry n) := by
    rw [analyzeLoop, foldl_analyzeStep_file_list]
    simp
  have hsp : (analyzeLoop names).suspicious_files =
      names.filter (fun n => !skipEntry n && isSuspicious (lowerStr n)) := by
    rw [analyzeLoop, foldl_analyzeStep_susp]
    simp
  refine ⟨?_, ?_, rfl, ?_, ?_⟩
  · intro n hn
    have hn' : n ∈ (analyzeLoop names).file_list := hn
    rw [hfl] at hn'
    have := (List.mem_filter.mp hn').2
    simpa using this
  · intro n hn
    have hn' : n ∈ (analyzeLoop names).suspicious_files := hn
    rw [hsp] at hn'
    have := (List.mem_filter.mp hn').2
    rw [Bool.and_eq_true] at this
    simpa using this.1
  · show (analyzeLoop names).file_list.length ≤ names.length
    rw [hfl]
    exact List.length_filter_le _ _
  · rintro ⟨n, hn, hskip⟩
    show (analyzeLoop names).file_list.length < names.length
    rw [hfl]
    exact filter_length_lt hn (by simp [hskip])

/-- Witness for C6: the spec's concrete archive
`["a/", "a/data.bin", "b.lnk"]` — one marker, two files. -/
theorem claim_C6_witness :
    analyze_zip_content
        (ZSource.entries (["a/", "a/data.bin", "b.lnk"].map Except.ok)) =
      Except.ok
        { has_package_files := (analyzeLoop ["a/", "a/data.bin", "b.lnk"]).has_package_files,
          has_ts_script := (analyzeLoop ["a/", "a/data.bin", "b.lnk"]).has_ts_script,
          file_list := (analyzeLoop ["a/", "a/data.bin", "b.lnk"]).file_list,
          suspicious_files := (analyzeLoop ["a/", "a/data.bin", "b.lnk"]).suspicious_files,
          total_files := 3 }
    ∧ (analyzeLoop ["a/", "a/data.bin", "b.lnk"]).file_list = ["a/data.bin", "b.lnk"]
    ∧ (∃ n ∈ ["a/", "a/data.bin", "b.lnk"], skipEntry n = true)
    ∧ (analyzeLoop ["a/", "a/data.bin", "b.lnk"]).file_list.length < 3 := by
  have h0 : analyze_zip_content
      (ZSource.entries (["a/", "a/data.bin", "b.lnk"].map Except.ok)) =
      Except.ok
        { has_package_files := (analyzeLoop ["a/", "a/data.bin", "b.lnk"]).has_package_files,
          has_ts_script := (analyzeLoop ["a/", "a/data.bin", "b.lnk"]).has_ts_script,
          file_list := (analyzeLoop ["a/", "a/data.bin", "b.lnk"]).file_list,
          suspicious_files := (analyzeLoop ["a/", "a/data.bin", "b.lnk"]).suspicious_files,
          total_files := 3 } := analyze_entries_ok _
  have h := claim_C6 ["a/", "a/data.bin", "b.lnk"] _ h0
  exact ⟨h0, by decide, ⟨"a/", by decide, by decide⟩,
    h.2.2.2.2 ⟨"a/", by decide, by decide⟩⟩

/-- C7: the classifier's two predicates and their independence — with a
`README.txt` entry and no `.package`/`.ts4script` entry anywhere, the
report has no primary payload flags set while `README.txt` is listed as
suspicious; a name is suspicious exactly when its lowercased form ends in
one of the fixed decoy extensions or contains one of the fixed decoy
substrings. -/
theorem claim_C7 (names : List String) (r : ZipAnalysis)
    (h : analyze_zip_content (ZSource.entries (names.map Except.ok)) =
      Except.ok r)
    (hreadme : "README.txt" ∈ names)
    (hnopkg : ∀ n ∈ names, endsWithStr (lowerStr n) ".package" = false)
    (hnots : ∀ n ∈ names, endsWithStr (lowerStr n) ".ts4script" = false) :
    r.has_package_files = false ∧ r.has_ts_script = false
    ∧ "README.txt" ∈ r.suspicious_files
    ∧ (∀ n, n ∈ r.suspicious_files ↔
        n ∈ names.filter (fun m => !skipEntry m && isSuspicious (lowerStr m))) := by
  rw [analyze_entries_ok] at h
  injection h with h'
  subst h'
  have hsp : (analyzeLoop names).suspicious_files =
      names.filter (fun n => !skipEntry n && isSuspicious (lowerStr n)) := by
    rw [analyzeLoop, foldl_analyzeStep_susp]
    simp
  refine ⟨?_, ?_, ?_, ?_⟩
  · show (analyzeLoop names).has_package_files = false
    rw [analyzeLoop, foldl_analyzeStep_package]
    simp only [Bool.false_or]
    exact any_eq_false_of (fun n hn => by simp [hnopkg n hn])
  · show (analyzeLoop names).has_ts_script = false
    rw [analyzeLoop, foldl_analyzeStep_ts]
    simp only [Bool.false_or]
    exact any_eq_false_of (fun n hn => by simp [hnots n hn])
  · show "README.txt" ∈ (analyzeLoop names).suspicious_files
    rw [hsp]
    exact List.mem_filter.mpr ⟨hreadme, by decide⟩
  · intro n
    show n ∈ (analyzeLoop names).suspicious_files ↔ _
    rw [hsp]

/-- Witness for C7: archive `["README.txt", "mod.bin"]`. -/
theorem claim_C7_witness :
    (∀ n ∈ ["README.txt", "mod.bin"], endsWithStr (lowerStr n) ".package" = false)
    ∧ (analyzeLoop ["README.txt", "mod.bin"]).has_package_files = false
    ∧ "README.txt" ∈ (analyzeLoop ["README.txt", "mod.bin"]).suspicious_files := by
  have h := claim_C7 ["README.txt", "mod.bin"] _ (analyze_entries_ok _)
    (by decide) (by decide) (by decide)
  exact ⟨by decide, h.1, h.2.2.1⟩

/-- C8 (counterexample): an archive whose central directory parses but
whose first entry's header cannot be read makes `analyze_zip_content` fail
with a third error form, `"Failed to read ZIP entry: …"`, which is
neither the archive-open form nor the archive-format form. -/
theorem claim_C8_counterexample :
    analyze_zip_content (ZSource.entries [Except.error "boom"]) =
      Except.error "Failed to read ZIP entry: boom"
    ∧ prefixStr "Failed to open ZIP: " "Failed to read ZIP entry: boom" = false
    ∧ prefixStr "Invalid ZIP file: " "Failed to read ZIP entry: boom" = false := by
  refine ⟨rfl, by decide, by decide⟩

/-- C8 (amended): the classifier mutates no filesystem state, and every
failure is one of exactly three forms: archive-open
(`"Failed to open ZIP: …"`), archive-format (`"Invalid ZIP file: …"`), or
entry-read (`"Failed to read ZIP entry: …"`). -/
theorem claim_C8 :
    (∀ (src : ZSource) (fs : FS), (analyzeFS src fs).2 = fs)
    ∧ (∀ (src : ZSource) (e : String),
        analyze_zip_content src = Except.error e →
        prefixStr "Failed to open ZIP: " e = true
        ∨ prefixStr "Invalid ZIP file: " e = true
        ∨ prefixStr "Failed to read ZIP entry: " e = true) := by
  refine ⟨fun _ _ => rfl, ?_⟩
  intro src e h
  cases src with
  | openFail m =>
    rw [analyze_zip_content] at h
    injection h with h'
    rw [← h']
    exact Or.inl (prefixStr_append _ _)
  | badFormat m =>
    rw [analyze_zip_content] at h
    injection h with h'
    rw [← h']
    exact Or.inr (Or.inl (prefixStr_append _ _))
  | entries es =>
    rw [analyze_zip_content] at h
    cases hr : readNames es with
    | error m =>
      rw [hr] at h
      injection h with h'
      rw [← h']
      exact Or.inr (Or.inr (prefixStr_append _ _))
    | ok names =>
      rw [hr] at h
      simp at h

/-- Witness for C8: the open-failure case at a concrete input. -/
theorem claim_C8_witness :
    (analyzeFS (ZSource.openFail "x") ⟨[], []⟩).2 = (⟨[], []⟩ : FS)
    ∧ (prefixStr "Failed to open ZIP: " "Failed to open ZIP: x" = true
        ∨ prefixStr "Invalid ZIP file: " "Failed to open ZIP: x" = true
        ∨ prefixStr "Failed to read ZIP entry: " "Failed to open ZIP: x" = true) :=
  ⟨claim_C8.1 (ZSource.openFail "x") ⟨[], []⟩,
    claim_C8.2 (ZSource.openFail "x") "Failed to open ZIP: x" rfl⟩

/-- C9: `extract_zip` computes every write target purely as the destination
joined with the raw entry name — the failure-free trace writes exactly one
event per file entry at `joinName dest name`, with no entry filtered out
and no containment check — and consequently the entry `"../evil.bin"`
extracted into `d/out` lands at `d/evil.bin`, outside the destination,
which itself receives no file at all. -/
theorem claim_C9 :
    (∀ (dest : List String) (entries : List ZEntry),
      (extractEventsE (fun _ => false) dest entries).1.filter Event.isWrite =
        (collectEntries entries).2.map
          (fun r => Event.write (joinName dest r.1) r.2))
    ∧ fileAt (extract_zip ["d", "out"] [⟨"../evil.bin", [7]⟩] ⟨[], []⟩)
        ["d", "evil.bin"] = some [7]
    ∧ countFilesUnder ["d", "out"]
        (extract_zip ["d", "out"] [⟨"../evil.bin", [7]⟩] ⟨[], []⟩) = 0
    ∧ (["d", "out"] : List String).isPrefixOf ["d", "evil.bin"] = false := by
  refine ⟨?_, by decide, by decide, by decide⟩
  intro dest entries
  have h1 : (runMkdirs (fun _ => false)
      ((collectEntries entries).1.map (fun d => joinName dest d))).2 = none :=
    runMkdirs_nofail _
  have h2 : (runMkdirs (fun _ => false)
      ((collectEntries entries).2.filterMap
        (fun r => parentDir (joinName dest r.1)))).2 = none :=
    runMkdirs_nofail _
  simp only [extractEventsE, h1, h2]
  rw [List.append_assoc, List.filter_append,
    filter_isWrite_of_all_mkdir (runMkdirs_all_mkdir _ _), List.filter_append,
    filter_isWrite_of_all_mkdir (runMkdirs_all_mkdir _ _)]
  rw [List.nil_append, List.nil_append]
  apply List.filter_eq_self.mpr
  intro ev hev
  obtain ⟨r, _, rfl⟩ := List.mem_map.mp hev
  rfl

/-- C10: `copy_directory` deletes an existing destination before the source
is ever read: with an unreadable source it returns an error, but the
pre-existing destination has already been replaced by an empty
directory — nothing remains under it. -/
theorem claim_C10 (target : List String) (fs : FS)
    (hnice : nicePath target = true) (htne : target ≠ [])
    (hex : existsAt fs target = true) :
    ((copy_directory none target fs).2).isSome = true
    ∧ target ∈ (copy_directory none target fs).1.dirs
    ∧ (∀ p, target.isPrefixOf p = true → p ≠ target →
        fileAt (copy_directory none target fs).1 p = none
        ∧ p ∉ (copy_directory none target fs).1.dirs) := by
  have hred : copy_directory none target fs =
      (mkdirAll target (removeDirAll target fs),
        some "Failed to copy directory: source read error") := by
    simp only [copy_directory, hex]
    rfl
  rw [hred]
  refine ⟨rfl, ?_, ?_⟩
  · show target ∈ (mkdirAll target (removeDirAll target fs)).dirs
    have h := mem_dirs_mkdirAll_self (p := target) (removeDirAll target fs)
      (by rw [resolvePath_nice _ hnice]; exact htne)
    rw [resolvePath_nice _ hnice] at h
    exact h
  · intro p hpre hne
    constructor
    · show fileAt (mkdirAll target (removeDirAll target fs)) p = none
      rw [fileAt_mkdirAll]
      exact fileAt_removeDirAll_under fs
        (by rw [resolvePath_nice _ hnice]; exact hpre)
    · show p ∉ (mkdirAll target (removeDirAll target fs)).dirs
      intro hmem
      simp only [mkdirAll] at hmem
      rcases List.mem_append.mp hmem with h1 | h2
      · rw [resolvePath_nice _ hnice] at h1
        obtain ⟨hp, _⟩ := mem_prefixesOf_shape h1
        exact hne (isPrefixOf_antisymm hp hpre)
      · have hnot := dirs_removeDirAll_not_under fs h2
        rw [resolvePath_nice _ hnice, hpre] at hnot
        cases hnot

/-- Witness for C10: a destination `["t"]` holding a file `"junk"`, with an
unreadable source: the call errors, yet `t` is now an empty directory. -/
theorem claim_C10_witness :
    existsAt ⟨[(["t", "junk"], [1])], [["t"], ["t", "sub"]]⟩ ["t"] = true
    ∧ ((copy_directory none ["t"] ⟨[(["t", "junk"], [1])], [["t"], ["t", "sub"]]⟩).2).isSome = true
    ∧ ["t"] ∈ (copy_directory none ["t"] ⟨[(["t", "junk"], [1])], [["t"], ["t", "sub"]]⟩).1.dirs
    ∧ fileAt (copy_directory none ["t"] ⟨[(["t", "junk"], [1])], [["t"], ["t", "sub"]]⟩).1
        ["t", "junk"] = none
    ∧ ["t", "sub"] ∉
        (copy_directory none ["t"] ⟨[(["t", "junk"], [1])], [["t"], ["t", "sub"]]⟩).1.dirs := by
  have h := claim_C10 ["t"] ⟨[(["t", "junk"], [1])], [["t"], ["t", "sub"]]⟩
    (by decide) (by decide) (by decide)
  exact ⟨by decide, h.1, h.2.1,
    (h.2.2 ["t", "junk"] (by decide) (by decide)).1,
    (h.2.2 ["t", "sub"] (by decide) (by decide)).2⟩

end SimsForge
